import Mathlib

/-!
Verification of the `pubz` multi-package release pipeline.

This file gives a shallow embedding of the core of the program:

* the data model (`PackageJson`, `DiscoveredPackage`, `PublishOptions`);
* the version engine of `src/version.ts` (`bumpVersion`, manifest rewriting);
* package discovery of `src/discovery.ts` (`discoverPackagesFrom`,
  `findLocalDependencies`);
* the dependency-ordering DFS of `src/discovery.ts`
  (`sortByDependencyOrder`);
* the effectful operations of `src/version.ts` / `src/publish.ts` over an
  explicit `World` state (parsed manifests by path, a write trace and an
  external-command trace);
* the CLI argument parser and the configuration gate of `src/cli.ts`.

File I/O is modelled as a total map from manifest path to the parsed
manifest (a `JSON.parse`/`JSON.stringify` round-trip preserves the parsed
structure), and external process execution is modelled by an oracle
function from a command to its exit code and output, with every invoked
command recorded in a trace.
-/

/-- A version-range map (`dependencies` etc.) of a manifest: an ordered
association list of package name to range specifier, as produced by
`JSON.parse` (object key order preserved). -/
abbrev DepMap := List (String × String)

/-- The parsed `package.json` shape used by the program (`src/types.ts`,
interface `PackageJson`).  The JSON field `private` is called
`privateFlag` here because `private` is a reserved word in Lean.
`workspaces` is either a plain list of patterns or an object with a
`packages` list (modelled as a sum). -/
structure PackageJson where
  name : String
  version : String
  privateFlag : Option Bool := Option.none
  workspaces : Option (List String ⊕ Option (List String)) := Option.none
  dependencies : Option DepMap := Option.none
  devDependencies : Option DepMap := Option.none
  peerDependencies : Option DepMap := Option.none
  scripts : Option (List (String × String)) := Option.none
deriving DecidableEq, Repr

/-- `src/types.ts`, interface `DiscoveredPackage`. -/
structure DiscoveredPackage where
  name : String
  version : String
  path : String
  packageJsonPath : String
  isPrivate : Bool
  localDependencies : List String
deriving DecidableEq, Repr

/-- `src/types.ts`, type `VersionBumpType`. -/
inductive VersionBumpType where
  | major
  | minor
  | patch
  | none
deriving DecidableEq, Repr

/-! ## Version engine (`src/version.ts`) -/

/-- Model of JavaScript `string.split('.')` on the character list of the
string: `""` splits to `[""]`, separators at the ends and consecutive
separators produce empty components. -/
def splitDotChars : List Char → List (List Char)
  | [] => [[]]
  | c :: rest =>
    let s := splitDotChars rest
    if c = '.' then [] :: s else (c :: s.headD []) :: s.tail

/-- The decimal digit character for `n % 10`. -/
def digitChar (n : Nat) : Char :=
  if n = 0 then '0' else if n = 1 then '1' else if n = 2 then '2'
  else if n = 3 then '3' else if n = 4 then '4' else if n = 5 then '5'
  else if n = 6 then '6' else if n = 7 then '7' else if n = 8 then '8'
  else '9'

/-- Fuel-driven decimal rendering of a natural number, most significant
digit first; the fuel is structurally decreasing so that concrete
instances reduce by evaluation.  `natToDec` below always supplies enough
fuel. -/
def natToDecAux : Nat → Nat → List Char → List Char
  | 0, _, acc => acc
  | fuel + 1, n, acc =>
    if n < 10 then digitChar n :: acc
    else natToDecAux fuel (n / 10) (digitChar (n % 10) :: acc)

/-- Decimal rendering of a natural number, as JavaScript template
interpolation `${n}` renders a non-negative number. -/
def natToDec (n : Nat) : List Char := natToDecAux (n + 1) n []

/-- Numeric value of a list of decimal digit characters (the value
`Number` gives a digit string; `Number("")` is `0`). -/
def charsVal (s : List Char) : Nat :=
  s.foldl (fun acc c => 10 * acc + (c.toNat - 48)) 0

/-- Number of binary digits of `n` (`0` for `0`), fuel-driven so that
concrete instances reduce by evaluation; `bitLen` supplies enough fuel. -/
def bitLenAux : Nat → Nat → Nat
  | 0, _ => 0
  | fuel + 1, n => if n = 0 then 0 else bitLenAux fuel (n / 2) + 1

/-- Number of binary digits of `n`: `bitLen 0 = 0`, and `2 ^ (bitLen n - 1)
≤ n < 2 ^ bitLen n` for positive `n`. -/
def bitLen (n : Nat) : Nat := bitLenAux (n + 1) n

/-- JavaScript's `Number.MAX_SAFE_INTEGER`, the largest integer `n` such
that `n` and `n + 1` are both exactly representable as IEEE-754 binary64
values. -/
def maxSafeInteger : Nat := 2 ^ 53 - 1

/-- Rounding of a non-negative integer to the nearest IEEE-754 binary64
value (round to nearest, ties to even), which is what JavaScript's
`Number` stores for every numeric value.  Integers up to `2 ^ 53` are
exactly representable; above, the representable values with `bitLen n`
bits are the multiples of the unit in the last place
`2 ^ (bitLen n - 53)`, and `n` rounds to the nearest multiple, a tie
going to the even quotient.  A round-up at the top of a binade lands on
`2 ^ bitLen n`, which is again representable. -/
def roundToDouble (n : Nat) : Nat :=
  if n < 2 ^ 53 then n
  else
    let e := bitLen n - 53
    let q := n / 2 ^ e
    let r := n % 2 ^ e
    if 2 * r < 2 ^ e then q * 2 ^ e
    else if 2 * r > 2 ^ e then (q + 1) * 2 ^ e
    else if q % 2 = 0 then q * 2 ^ e else (q + 1) * 2 ^ e

/-- JavaScript `+ 1` on an integer-valued double: the exact sum rounded
back to a double.  Below `2 ^ 53` this is plain `n + 1`; at and above,
precision is lost (`jsAddOne (2 ^ 53) = 2 ^ 53`). -/
def jsAddOne (d : Nat) : Nat := roundToDouble (d + 1)

/-- Model of JavaScript `Number` on a version component: a string of
decimal digits (including the empty string) yields the nearest double to
its integer value — exact only up to `2 ^ 53` — and any other shape is
mapped to `NaN` (`Option.none`).  Other shapes `Number` itself accepts
(signs, fractions, exponent or hex notation, surrounding whitespace) are
outside the modelled domain: the data model restricts version components
to non-negative decimal integers, and every theorem below applies this
function to digit strings only. -/
def jsNumber (s : List Char) : Option Nat :=
  if s.all Char.isDigit then Option.some (roundToDouble (charsVal s)) else Option.none

/-- Rendering of a possibly-NaN number inside a template string:
`${NaN}` renders as `"NaN"`, a number renders in decimal.  Exact decimal
is the ECMAScript rendering for every integer double up to `2 ^ 53`
(there the shortest round-tripping decimal is the value itself), and
every theorem below evaluates this function only at such values; the
engine's shortest-round-trip digit dropping above `2 ^ 53` and
exponential notation at and above `10 ^ 21` are outside the modelled
range. -/
def renderNum : Option Nat → List Char
  | Option.some n => natToDec n
  | Option.none => ['N', 'a', 'N']

/-- `src/version.ts`, `bumpVersion`: `none` returns the input unchanged;
otherwise the version is split on `'.'`, the first three components are
coerced with `Number` (a missing component is `undefined`, hence NaN) —
an IEEE-754 double, hence rounded by `roundToDouble` — the bumped
component is incremented with double addition `jsAddOne`, and the triple
is re-rendered. -/
def bumpVersion (version : String) (type : VersionBumpType) : String :=
  if type = VersionBumpType.none then version
  else
    let parts := (splitDotChars version.data).map jsNumber
    let major := parts.getD 0 Option.none
    let minor := parts.getD 1 Option.none
    let patch := parts.getD 2 Option.none
    match type with
    | VersionBumpType.major =>
        String.mk (renderNum (major.map jsAddOne) ++ ['.', '0', '.', '0'])
    | VersionBumpType.minor =>
        String.mk (renderNum major ++ '.' :: renderNum (minor.map jsAddOne) ++ ['.', '0'])
    | VersionBumpType.patch =>
        String.mk (renderNum major ++ '.' :: renderNum minor ++ '.' :: renderNum (patch.map jsAddOne))
    | VersionBumpType.none => version

/-- The dotted rendering of a non-negative integer triple, `"X.Y.Z"`. -/
def verString (x y z : Nat) : String :=
  String.mk (natToDec x ++ '.' :: natToDec y ++ '.' :: natToDec z)

/-! ## Package discovery (`src/discovery.ts`) -/

/-- First-occurrence deduplication, as JavaScript object-spread key
merging keeps each key at its first position.  `seen` accumulates the
keys already emitted. -/
def firstDedupAux (seen : List String) : List String → List String
  | [] => []
  | x :: xs =>
    if x ∈ seen then firstDedupAux seen xs
    else x :: firstDedupAux (x :: seen) xs

/-- First-occurrence deduplication of a key list. -/
def firstDedup (l : List String) : List String := firstDedupAux [] l

/-- The keys of `{...dependencies, ...devDependencies, ...peerDependencies}`
before deduplication: dependency names of all three maps, in map order. -/
def depNamesUnion (j : PackageJson) : List String :=
  (j.dependencies.getD []).map Prod.fst
    ++ (j.devDependencies.getD []).map Prod.fst
    ++ (j.peerDependencies.getD []).map Prod.fst

/-- `src/discovery.ts`, `findLocalDependencies`: the keys of the spread
union of the three dependency maps (each name once, at its first
occurrence), filtered by membership in the discovered-name set.  The
function re-reads the manifest from disk; the file is unchanged since
discovery, so the same parsed manifest is supplied here directly. -/
def findLocalDependencies (j : PackageJson) (packageNames : List String) : List String :=
  (firstDedup (depNamesUnion j)).filter (fun d => packageNames.contains d)

/-- `src/discovery.ts`, `packageFromPath`, with the local dependencies
already resolved. -/
def mkDiscovered (dir : String) (j : PackageJson) (packageNames : List String) :
    DiscoveredPackage where
  name := j.name
  version := j.version
  path := dir
  packageJsonPath := dir ++ "/package.json"
  isPrivate := j.privateFlag = Option.some true
  localDependencies := findLocalDependencies j packageNames

/-- The names of all successfully loaded manifests of a discovery run.  A
candidate is a directory together with the result of attempting to read
its `package.json` (`Option.none` models a thrown read/parse error, which
the loop silently skips). -/
def loadedNames (candidates : List (String × Option PackageJson)) : List String :=
  (candidates.filterMap Prod.snd).map PackageJson.name

/-- `src/discovery.ts`, `discoverPackages`, lines 74–95: read every
candidate directory's manifest (skipping failures), collect the name set,
then resolve each package's `localDependencies` against that set. -/
def discoverPackagesFrom (candidates : List (String × Option PackageJson)) :
    List DiscoveredPackage :=
  let names := loadedNames candidates
  (candidates.filterMap (fun c => c.2.map (fun j => (c.1, j)))).map
    (fun c => mkDiscovered c.1 c.2 names)

/-- `src/cli.ts`: `packages.filter((p) => !p.isPrivate)`, the publishable
set. -/
def publishableOf (packages : List DiscoveredPackage) : List DiscoveredPackage :=
  packages.filter (fun p => !p.isPrivate)

/-! ## Dependency ordering (`src/discovery.ts`, `sortByDependencyOrder`) -/

/-- Model of `new Map(packages.map((p) => [p.name, p]))` followed by
`.get(name)`: the last package with the given name wins, `Option.none`
if no package has the name. -/
def lookupPkg : List DiscoveredPackage → String → Option DiscoveredPackage
  | [], _ => Option.none
  | p :: ps, n =>
    match lookupPkg ps n with
    | Option.some q => Option.some q
    | Option.none => if p.name = n then Option.some p else Option.none

/-- The state of the DFS: the visited name set and the sorted output so
far. -/
abbrev VisitState := List String × List DiscoveredPackage

/-- `src/discovery.ts`, the inner `visit` closure of
`sortByDependencyOrder`: skip an already-visited package, otherwise mark
it visited, visit each resolvable local dependency first, then append the
package to the output.  The `fuel` argument makes the recursion
structural; the recursion depth of the source is bounded by the number of
distinct package names, so `sortByDependencyOrder` always supplies enough
fuel (proved below). -/
def visitFuel (pm : List DiscoveredPackage) : Nat → DiscoveredPackage → VisitState → VisitState
  | 0, _, st => st
  | fuel + 1, pkg, st =>
    if pkg.name ∈ st.1 then st
    else
      let st2 := pkg.localDependencies.foldl
        (fun acc d =>
          match lookupPkg pm d with
          | Option.some dep => visitFuel pm fuel dep acc
          | Option.none => acc)
        (pkg.name :: st.1, st.2)
      (st2.1, st2.2 ++ [pkg])

/-- `src/discovery.ts`, `sortByDependencyOrder`: visit every package in
input order against an initially empty state. -/
def sortByDependencyOrder (packages : List DiscoveredPackage) : List DiscoveredPackage :=
  (packages.foldl
    (fun st pkg => visitFuel packages (packages.length + 1) pkg st) ([], [])).2

/-- `q` directly depends on `p` within the package list `pm`: `p` is a
member and `q` names it in `localDependencies`.  This is the
local-dependency graph of the input. -/
def DependsOn (pm : List DiscoveredPackage) (q p : DiscoveredPackage) : Prop :=
  q ∈ pm ∧ p ∈ pm ∧ p.name ∈ q.localDependencies

/-- The local-dependency graph of `pm` is acyclic: no package transitively
depends on itself. -/
def AcyclicDeps (pm : List DiscoveredPackage) : Prop :=
  ∀ p, ¬ Relation.TransGen (DependsOn pm) p p

/-! ## Basic facts about the DFS -/

/-- The name list of a package list. -/
def pkgNames (l : List DiscoveredPackage) : List String :=
  l.map DiscoveredPackage.name

/-- The edge relation the DFS actually follows: `q` has a dependency name
that `packageMap.get` resolves to `p`. -/
def edgeOf (pm : List DiscoveredPackage) (q p : DiscoveredPackage) : Prop :=
  ∃ d ∈ q.localDependencies, lookupPkg pm d = Option.some p

theorem lookupPkg_mem {pm : List DiscoveredPackage} {n : String} {p : DiscoveredPackage}
    (h : lookupPkg pm n = Option.some p) : p ∈ pm ∧ p.name = n := by
  induction pm with
  | nil => simp [lookupPkg] at h
  | cons x pm ih =>
    simp only [lookupPkg] at h
    cases hx : lookupPkg pm n with
    | some q =>
      rw [hx] at h
      obtain rfl : q = p := Option.some.inj h
      obtain ⟨hmem, hname⟩ := ih hx
      exact ⟨List.mem_cons_of_mem _ hmem, hname⟩
    | none =>
      rw [hx] at h
      by_cases he : x.name = n
      · simp [he] at h
        cases h
        exact ⟨List.mem_cons_self _ _, he⟩
      · simp [he] at h

theorem lookupPkg_of_mem {pm : List DiscoveredPackage} {p : DiscoveredPackage}
    (hnd : (pkgNames pm).Nodup) (hp : p ∈ pm) :
    lookupPkg pm p.name = Option.some p := by
  induction pm with
  | nil => simp at hp
  | cons x pm ih =>
    simp only [pkgNames, List.map_cons, List.nodup_cons] at hnd
    rcases List.mem_cons.mp hp with hpx | hpm
    · subst hpx
      have hnone : lookupPkg pm p.name = Option.none := by
        cases hlk : lookupPkg pm p.name with
        | none => rfl
        | some q =>
          obtain ⟨hq, hqn⟩ := lookupPkg_mem hlk
          exact absurd (hqn ▸ List.mem_map_of_mem DiscoveredPackage.name hq) hnd.1
      simp [lookupPkg, hnone]
    · have := ih hnd.2 hpm
      simp [lookupPkg, this]

/-- Two members of a list with no duplicate names and the same name are
equal. -/
theorem eq_of_name_eq {pm : List DiscoveredPackage} {p q : DiscoveredPackage}
    (hnd : (pkgNames pm).Nodup) (hp : p ∈ pm) (hq : q ∈ pm)
    (h : p.name = q.name) : p = q :=
  List.inj_on_of_nodup_map hnd hp hq h

theorem edgeOf_target_mem {pm : List DiscoveredPackage} {q p : DiscoveredPackage}
    (h : edgeOf pm q p) : p ∈ pm := by
  obtain ⟨d, _, hlk⟩ := h
  exact (lookupPkg_mem hlk).1

@[simp]
theorem pkgNames_append (l₁ l₂ : List DiscoveredPackage) :
    pkgNames (l₁ ++ l₂) = pkgNames l₁ ++ pkgNames l₂ :=
  List.map_append _ _ _

/-- A package-level bookkeeping record for one DFS step: `st'` extends
`st` by a block `t` of newly output packages, all from `pm`, all freshly
visited, with `R` (typically reachability from the visit root) holding of
each. -/
def Delta (pm : List DiscoveredPackage) (R : DiscoveredPackage → Prop)
    (st st' : VisitState) (t : List DiscoveredPackage) : Prop :=
  st'.2 = st.2 ++ t ∧
  (∀ n ∈ st.1, n ∈ st'.1) ∧
  (∀ n ∈ st'.1, n ∈ st.1 ∨ n ∈ pkgNames t) ∧
  (∀ q ∈ t, q ∈ pm) ∧
  (∀ q ∈ t, q.name ∉ st.1) ∧
  (∀ q ∈ t, q.name ∈ st'.1) ∧
  (pkgNames t).Nodup ∧
  (∀ q ∈ t, R q)

theorem delta_refl (pm : List DiscoveredPackage) (R : DiscoveredPackage → Prop)
    (st : VisitState) : Delta pm R st st [] := by
  refine ⟨by simp, fun n h => h, fun n h => Or.inl h, ?_, ?_, ?_, ?_, ?_⟩ <;> simp [pkgNames]

theorem delta_trans {pm : List DiscoveredPackage} {R : DiscoveredPackage → Prop}
    {st mid res : VisitState} {t₁ t₂ : List DiscoveredPackage}
    (h₁ : Delta pm R st mid t₁) (h₂ : Delta pm R mid res t₂) :
    Delta pm R st res (t₁ ++ t₂) := by
  obtain ⟨e₁, m₁, b₁, p₁, f₁, v₁, n₁, r₁⟩ := h₁
  obtain ⟨e₂, m₂, b₂, p₂, f₂, v₂, n₂, r₂⟩ := h₂
  refine ⟨by rw [e₂, e₁, List.append_assoc], fun n h => m₂ n (m₁ n h), ?_, ?_, ?_, ?_, ?_, ?_⟩
  · intro n h
    rcases b₂ n h with h' | h'
    · rcases b₁ n h' with h'' | h''
      · exact Or.inl h''
      · exact Or.inr (by rw [pkgNames_append]; exact List.mem_append_left _ h'')
    · exact Or.inr (by rw [pkgNames_append]; exact List.mem_append_right _ h')
  · intro q hq
    rcases List.mem_append.mp hq with h | h
    · exact p₁ q h
    · exact p₂ q h
  · intro q hq
    rcases List.mem_append.mp hq with h | h
    · exact f₁ q h
    · exact fun hc => f₂ q h (m₁ _ hc)
  · intro q hq
    rcases List.mem_append.mp hq with h | h
    · exact m₂ _ (v₁ q h)
    · exact v₂ q h
  · rw [pkgNames_append]
    refine List.Nodup.append n₁ n₂ ?_
    intro a ha hb
    simp only [pkgNames, List.mem_map] at ha hb
    obtain ⟨x, hx, rfl⟩ := ha
    obtain ⟨y, hy, hya⟩ := hb
    exact f₂ y hy (by rw [hya]; exact v₁ x hx)
  · intro q hq
    rcases List.mem_append.mp hq with h | h
    · exact r₁ q h
    · exact r₂ q h

theorem delta_mono {pm : List DiscoveredPackage} {R R' : DiscoveredPackage → Prop}
    {st st' : VisitState} {t : List DiscoveredPackage}
    (hRR : ∀ q, R q → R' q) (h : Delta pm R st st' t) : Delta pm R' st st' t := by
  obtain ⟨e, m, b, p, f, v, n, r⟩ := h
  exact ⟨e, m, b, p, f, v, n, fun q hq => hRR q (r q hq)⟩

/-- The dependency loop inside `visit`: fold the visit step over the
dependency-name list. -/
def visitChildren (pm : List DiscoveredPackage) (fuel : Nat) (ds : List String)
    (acc : VisitState) : VisitState :=
  ds.foldl
    (fun acc d =>
      match lookupPkg pm d with
      | Option.some dep => visitFuel pm fuel dep acc
      | Option.none => acc)
    acc

theorem visitFuel_zero (pm : List DiscoveredPackage) (pkg : DiscoveredPackage)
    (st : VisitState) : visitFuel pm 0 pkg st = st := rfl

theorem visitFuel_succ (pm : List DiscoveredPackage) (fuel : Nat)
    (pkg : DiscoveredPackage) (st : VisitState) :
    visitFuel pm (fuel + 1) pkg st =
      if pkg.name ∈ st.1 then st
      else
        let st2 := visitChildren pm fuel pkg.localDependencies (pkg.name :: st.1, st.2)
        (st2.1, st2.2 ++ [pkg]) := rfl

theorem visitChildren_nil (pm : List DiscoveredPackage) (fuel : Nat)
    (acc : VisitState) : visitChildren pm fuel [] acc = acc := rfl

theorem visitChildren_cons (pm : List DiscoveredPackage) (fuel : Nat)
    (d : String) (ds : List String) (acc : VisitState) :
    visitChildren pm fuel (d :: ds) acc =
      visitChildren pm fuel ds
        (match lookupPkg pm d with
         | Option.some dep => visitFuel pm fuel dep acc
         | Option.none => acc) := rfl

theorem visitChildren_delta (pm : List DiscoveredPackage) (fuel : Nat)
    (IH : ∀ pkg st, pkg ∈ pm →
      ∃ t, Delta pm (Relation.ReflTransGen (edgeOf pm) pkg) st (visitFuel pm fuel pkg st) t) :
    ∀ (ds : List String) (root : DiscoveredPackage) (acc : VisitState),
      (∀ d ∈ ds, d ∈ root.localDependencies) →
      ∃ t, Delta pm (Relation.ReflTransGen (edgeOf pm) root) acc
        (visitChildren pm fuel ds acc) t := by
  intro ds
  induction ds with
  | nil =>
    intro root acc _
    exact ⟨[], by rw [visitChildren_nil]; exact delta_refl pm _ acc⟩
  | cons d ds ih =>
    intro root acc hds
    rw [visitChildren_cons]
    cases hlk : lookupPkg pm d with
    | none =>
      simp only [hlk]
      exact ih root acc (fun d' hd' => hds d' (List.mem_cons_of_mem _ hd'))
    | some dep =>
      simp only [hlk]
      have hdep : dep ∈ pm := (lookupPkg_mem hlk).1
      have hedge : edgeOf pm root dep := ⟨d, hds d (List.mem_cons_self _ _), hlk⟩
      obtain ⟨t₁, hd₁⟩ := IH dep acc hdep
      have hd₁' : Delta pm (Relation.ReflTransGen (edgeOf pm) root) acc
          (visitFuel pm fuel dep acc) t₁ :=
        delta_mono (fun q hq => Relation.ReflTransGen.head hedge hq) hd₁
      obtain ⟨t₂, hd₂⟩ := ih root (visitFuel pm fuel dep acc)
        (fun d' hd' => hds d' (List.mem_cons_of_mem _ hd'))
      exact ⟨t₁ ++ t₂, delta_trans hd₁' hd₂⟩

theorem visitFuel_delta (pm : List DiscoveredPackage) :
    ∀ (fuel : Nat) (pkg : DiscoveredPackage) (st : VisitState), pkg ∈ pm →
      ∃ t, Delta pm (Relation.ReflTransGen (edgeOf pm) pkg) st (visitFuel pm fuel pkg st) t := by
  intro fuel
  induction fuel with
  | zero =>
    intro pkg st _
    exact ⟨[], by rw [visitFuel_zero]; exact delta_refl pm _ st⟩
  | succ fuel ihf =>
    intro pkg st hpkg
    rw [visitFuel_succ]
    by_cases hv : pkg.name ∈ st.1
    · simp only [hv, if_true]
      exact ⟨[], delta_refl pm _ st⟩
    · simp only [hv, if_false]
      obtain ⟨t₂, hd⟩ := visitChildren_delta pm fuel (fun p s hp => ihf p s hp)
        pkg.localDependencies pkg (pkg.name :: st.1, st.2) (fun d hd => hd)
      obtain ⟨e₂, m₂, b₂, p₂, f₂, v₂, n₂, r₂⟩ := hd
      refine ⟨t₂ ++ [pkg], ?_, ?_, ?_, ?_, ?_, ?_, ?_, ?_⟩
      · show _ ++ [pkg] = st.2 ++ (t₂ ++ [pkg])
        rw [e₂]
        simp
      · intro n hn
        exact m₂ n (List.mem_cons_of_mem _ hn)
      · intro n hn
        rcases b₂ n hn with hn' | hn'
        · rcases List.mem_cons.mp hn' with hn'' | hn''
          · exact Or.inr (by rw [pkgNames_append, hn'']; simp [pkgNames])
          · exact Or.inl hn''
        · exact Or.inr (by rw [pkgNames_append]; exact List.mem_append_left _ hn')
      · intro q hq
        rcases List.mem_append.mp hq with h | h
        · exact p₂ q h
        · rw [List.mem_singleton.mp h]; exact hpkg
      · intro q hq
        rcases List.mem_append.mp hq with h | h
        · exact fun hc => f₂ q h (List.mem_cons_of_mem _ hc)
        · rw [List.mem_singleton.mp h]; exact hv
      · intro q hq
        rcases List.mem_append.mp hq with h | h
        · exact v₂ q h
        · rw [List.mem_singleton.mp h]
          exact m₂ pkg.name (List.mem_cons_self _ _)
      · rw [pkgNames_append]
        refine List.Nodup.append n₂ (by simp [pkgNames]) ?_
        intro a ha hb
        simp only [pkgNames, List.map_cons, List.map_nil, List.mem_singleton] at hb
        subst hb
        simp only [pkgNames, List.mem_map] at ha
        obtain ⟨x, hx, hxa⟩ := ha
        exact f₂ x hx (by rw [hxa]; exact List.mem_cons_self _ _)
      · intro q hq
        rcases List.mem_append.mp hq with h | h
        · exact r₂ q h
        · rw [List.mem_singleton.mp h]

theorem visitFuel_visits (pm : List DiscoveredPackage) (fuel : Nat)
    (pkg : DiscoveredPackage) (st : VisitState) :
    pkg.name ∈ (visitFuel pm (fuel + 1) pkg st).1 := by
  rw [visitFuel_succ]
  by_cases hv : pkg.name ∈ st.1
  · simp only [hv, if_true]
  · simp only [hv, if_false]
    obtain ⟨t₂, hd⟩ := visitChildren_delta pm fuel
      (fun p s hp => visitFuel_delta pm fuel p s hp)
      pkg.localDependencies pkg (pkg.name :: st.1, st.2) (fun d hd => hd)
    exact hd.2.1 pkg.name (List.mem_cons_self _ _)

/-- One iteration of the outer loop of `sortByDependencyOrder`. -/
def sortStep (pm : List DiscoveredPackage) (st : VisitState) (pkg : DiscoveredPackage) :
    VisitState :=
  visitFuel pm (pm.length + 1) pkg st

theorem sortByDependencyOrder_eq_foldl (pm : List DiscoveredPackage) :
    sortByDependencyOrder pm = (pm.foldl (sortStep pm) ([], [])).2 := rfl

theorem sortFold_delta (pm : List DiscoveredPackage) :
    ∀ (l : List DiscoveredPackage) (st : VisitState), (∀ x ∈ l, x ∈ pm) →
      (∃ t, Delta pm (fun q => ∃ r ∈ l, Relation.ReflTransGen (edgeOf pm) r q)
        st (l.foldl (sortStep pm) st) t) ∧
      (∀ x ∈ l, x.name ∈ (l.foldl (sortStep pm) st).1) := by
  intro l
  induction l with
  | nil =>
    intro st _
    exact ⟨⟨[], delta_refl pm _ st⟩, by simp⟩
  | cons x l ih =>
    intro st hl
    have hx : x ∈ pm := hl x (List.mem_cons_self _ _)
    have hl' : ∀ y ∈ l, y ∈ pm := fun y hy => hl y (List.mem_cons_of_mem _ hy)
    obtain ⟨t₁, hd₁⟩ := visitFuel_delta pm (pm.length + 1) x st hx
    obtain ⟨⟨t₂, hd₂⟩, hcomp⟩ := ih (sortStep pm st x) hl'
    have hd₁' : Delta pm (fun q => ∃ r ∈ x :: l, Relation.ReflTransGen (edgeOf pm) r q)
        st (sortStep pm st x) t₁ :=
      delta_mono (fun q hq => ⟨x, List.mem_cons_self _ _, hq⟩) hd₁
    have hd₂' : Delta pm (fun q => ∃ r ∈ x :: l, Relation.ReflTransGen (edgeOf pm) r q)
        (sortStep pm st x) ((x :: l).foldl (sortStep pm) st) t₂ :=
      delta_mono
        (fun q hq => by
          obtain ⟨r, hr, hrq⟩ := hq
          exact ⟨r, List.mem_cons_of_mem _ hr, hrq⟩)
        hd₂
    constructor
    · exact ⟨t₁ ++ t₂, delta_trans hd₁' hd₂'⟩
    · intro y hy
      rcases List.mem_cons.mp hy with hyx | hyl
      · subst hyx
        have hv : y.name ∈ (sortStep pm st y).1 := visitFuel_visits pm pm.length y st
        exact hd₂.2.1 y.name hv
      · exact hcomp y hyl

/-- Global facts about the sorted output: it consists of input packages,
has no duplicate names (hence no duplicate packages), and every input
package's name occurs in it. -/
theorem sortByDependencyOrder_basic (pm : List DiscoveredPackage) :
    (∀ q ∈ sortByDependencyOrder pm, q ∈ pm) ∧
    (pkgNames (sortByDependencyOrder pm)).Nodup ∧
    (∀ x ∈ pm, x.name ∈ pkgNames (sortByDependencyOrder pm)) := by
  obtain ⟨⟨t, hd⟩, hcomp⟩ := sortFold_delta pm pm ([], []) (fun x hx => hx)
  obtain ⟨e, m, b, p, f, v, n, r⟩ := hd
  have hsort : sortByDependencyOrder pm = t := by
    rw [sortByDependencyOrder_eq_foldl, e]
    simp
  refine ⟨?_, ?_, ?_⟩
  · intro q hq
    rw [hsort] at hq
    exact p q hq
  · rw [hsort]
    exact n
  · intro x hx
    have hname := hcomp x hx
    rcases b x.name hname with h | h
    · simp at h
    · rw [hsort]
      exact h

/-- A package of `pm` is a member of the sorted output (names are unique,
so the name occurrence is the package itself). -/
theorem sortByDependencyOrder_mem (pm : List DiscoveredPackage)
    (hnd : (pkgNames pm).Nodup) {x : DiscoveredPackage} (hx : x ∈ pm) :
    x ∈ sortByDependencyOrder pm := by
  obtain ⟨hsub, hnds, hcomp⟩ := sortByDependencyOrder_basic pm
  have := hcomp x hx
  simp only [pkgNames, List.mem_map] at this
  obtain ⟨q, hq, hqn⟩ := this
  have : q = x := eq_of_name_eq hnd (hsub q hq) hx hqn
  exact this ▸ hq

/-! ## Topological soundness of the DFS -/

/-- `TopoFrom pm allowed s`: walking `s` left to right, every resolvable
dependency of each element points either into `allowed` or at an earlier
element of `s`. -/
def TopoFrom (pm : List DiscoveredPackage) : List String → List DiscoveredPackage → Prop
  | _, [] => True
  | allowed, q :: rest =>
    (∀ p, edgeOf pm q p → p.name ∈ allowed) ∧ TopoFrom pm (q.name :: allowed) rest

theorem topoFrom_mono (pm : List DiscoveredPackage) :
    ∀ (s : List DiscoveredPackage) (al al' : List String),
      (∀ n ∈ al, n ∈ al') → TopoFrom pm al s → TopoFrom pm al' s := by
  intro s
  induction s with
  | nil => intro al al' _ _; trivial
  | cons q s ih =>
    intro al al' hsub h
    obtain ⟨hhead, htail⟩ := h
    refine ⟨fun p hp => hsub _ (hhead p hp), ih _ _ ?_ htail⟩
    intro n hn
    rcases List.mem_cons.mp hn with h | h
    · exact h ▸ List.mem_cons_self _ _
    · exact List.mem_cons_of_mem _ (hsub n h)

theorem topoFrom_append (pm : List DiscoveredPackage) :
    ∀ (s t : List DiscoveredPackage) (al : List String),
      TopoFrom pm al (s ++ t) ↔
        TopoFrom pm al s ∧ TopoFrom pm ((pkgNames s).reverse ++ al) t := by
  intro s
  induction s with
  | nil =>
    intro t al
    simp [TopoFrom, pkgNames]
  | cons q s ih =>
    intro t al
    show ((∀ p, edgeOf pm q p → p.name ∈ al) ∧ TopoFrom pm (q.name :: al) (s ++ t)) ↔ _
    rw [ih t (q.name :: al)]
    constructor
    · rintro ⟨h₁, h₂, h₃⟩
      refine ⟨⟨h₁, h₂⟩, ?_⟩
      have : (pkgNames (q :: s)).reverse ++ al
          = (pkgNames s).reverse ++ (q.name :: al) := by
        simp [pkgNames]
      rw [this]
      exact h₃
    · rintro ⟨⟨h₁, h₂⟩, h₃⟩
      refine ⟨h₁, h₂, ?_⟩
      have : (pkgNames (q :: s)).reverse ++ al
          = (pkgNames s).reverse ++ (q.name :: al) := by
        simp [pkgNames]
      rw [← this]
      exact h₃

theorem topoFrom_extract {pm : List DiscoveredPackage} {al : List String}
    {s pre suf : List DiscoveredPackage} {q : DiscoveredPackage}
    (h : TopoFrom pm al s) (heq : s = pre ++ q :: suf) :
    ∀ p, edgeOf pm q p → p.name ∈ pkgNames pre ∨ p.name ∈ al := by
  subst heq
  rw [topoFrom_append] at h
  obtain ⟨-, h₂⟩ := h
  obtain ⟨hhead, -⟩ := h₂
  intro p hp
  rcases List.mem_append.mp (hhead p hp) with h | h
  · exact Or.inl (List.mem_reverse.mp h)
  · exact Or.inr h

theorem topoFrom_transfer (pm : List DiscoveredPackage) :
    ∀ (s : List DiscoveredPackage) (al al' : List String),
      TopoFrom pm al s →
      (∀ q ∈ s, ∀ p, edgeOf pm q p → p.name ∈ al → p.name ∈ al') →
      TopoFrom pm al' s := by
  intro s
  induction s with
  | nil => intro al al' _ _; trivial
  | cons q s ih =>
    intro al al' h htr
    obtain ⟨hhead, htail⟩ := h
    refine ⟨fun p hp => htr q (List.mem_cons_self _ _) p hp (hhead p hp), ?_⟩
    refine ih (q.name :: al) (q.name :: al') htail ?_
    intro q' hq' p hp hmem
    rcases List.mem_cons.mp hmem with h | h
    · exact h ▸ List.mem_cons_self _ _
    · exact List.mem_cons_of_mem _ (htr q' (List.mem_cons_of_mem _ hq') p hp h)

/-- The number of package names of `pm` not yet visited: the measure that
bounds the DFS recursion depth. -/
def missingCount (pm : List DiscoveredPackage) (v : List String) : Nat :=
  ((pkgNames pm).toFinset \ v.toFinset).card

theorem missingCount_le_of_subset {pm : List DiscoveredPackage} {v v' : List String}
    (h : ∀ n ∈ v, n ∈ v') : missingCount pm v' ≤ missingCount pm v := by
  refine Finset.card_le_card (Finset.sdiff_subset_sdiff (Finset.Subset.refl _) ?_)
  intro n hn
  rw [List.mem_toFinset] at hn ⊢
  exact h n hn

theorem missingCount_lt {pm : List DiscoveredPackage} {v : List String}
    {pkg : DiscoveredPackage} (hpkg : pkg ∈ pm) (hv : pkg.name ∉ v) :
    missingCount pm (pkg.name :: v) < missingCount pm v := by
  have hmem : pkg.name ∈ (pkgNames pm).toFinset \ v.toFinset := by
    rw [Finset.mem_sdiff, List.mem_toFinset, List.mem_toFinset]
    exact ⟨List.mem_map_of_mem DiscoveredPackage.name hpkg, hv⟩
  have hsub : (pkgNames pm).toFinset \ (pkg.name :: v).toFinset
      ⊆ (pkgNames pm).toFinset \ v.toFinset := by
    refine Finset.sdiff_subset_sdiff (Finset.Subset.refl _) ?_
    intro n hn
    rw [List.mem_toFinset] at hn ⊢
    exact List.mem_cons_of_mem _ hn
  refine Finset.card_lt_card ((Finset.ssubset_iff_of_subset hsub).mpr ⟨pkg.name, hmem, ?_⟩)
  rw [Finset.mem_sdiff, List.mem_toFinset, List.mem_toFinset]
  intro hc
  exact hc.2 (List.mem_cons_self _ _)

theorem missingCount_le (pm : List DiscoveredPackage) (v : List String) :
    missingCount pm v ≤ pm.length := by
  calc missingCount pm v ≤ (pkgNames pm).toFinset.card :=
        Finset.card_le_card (Finset.sdiff_subset)
    _ ≤ (pkgNames pm).length := List.toFinset_card_le _
    _ = pm.length := List.length_map _ _

/-- The DFS-edge graph has no cycle through a member of `pm`. -/
def AcyclicE (pm : List DiscoveredPackage) : Prop :=
  ∀ x ∈ pm, ¬ Relation.TransGen (edgeOf pm) x x

theorem transGen_dependsOn_of_edge {pm : List DiscoveredPackage}
    {q y : DiscoveredPackage} (hq : q ∈ pm)
    (h : Relation.TransGen (edgeOf pm) q y) :
    Relation.TransGen (DependsOn pm) q y ∧ y ∈ pm := by
  induction h with
  | single e =>
    obtain ⟨d, hd, hlk⟩ := e
    obtain ⟨hy, hyn⟩ := lookupPkg_mem hlk
    refine ⟨Relation.TransGen.single ⟨hq, hy, ?_⟩, hy⟩
    rw [hyn]
    exact hd
  | tail _ e ih =>
    obtain ⟨tg, hb⟩ := ih
    obtain ⟨d, hd, hlk⟩ := e
    obtain ⟨hc, hcn⟩ := lookupPkg_mem hlk
    refine ⟨Relation.TransGen.tail tg ⟨hb, hc, ?_⟩, hc⟩
    rw [hcn]
    exact hd

theorem acyclicE_of_acyclicDeps {pm : List DiscoveredPackage}
    (h : AcyclicDeps pm) : AcyclicE pm :=
  fun x hx hc => h x (transGen_dependsOn_of_edge hx hc).1

/-- A rank function strictly decreasing along direct dependencies
certifies acyclicity (used to discharge `AcyclicDeps` on concrete
inputs). -/
theorem acyclicDeps_of_rank (pm : List DiscoveredPackage) (rank : String → Nat)
    (h : ∀ q ∈ pm, ∀ p ∈ pm, p.name ∈ q.localDependencies →
      rank p.name < rank q.name) :
    AcyclicDeps pm := by
  have aux : ∀ a b, Relation.TransGen (DependsOn pm) a b → rank b.name < rank a.name := by
    intro a b htg
    induction htg with
    | single e => exact h _ e.1 _ e.2.1 e.2.2
    | tail _ e ih => exact lt_trans (h _ e.1 _ e.2.1 e.2.2) ih
  intro p hp
  exact absurd (aux p p hp) (lt_irrefl _)

/-- The DFS state invariant, relative to the names of the active
(currently being visited) packages: the active names are visited; every
visited name is an output name or active; output names are visited; the
output consists of `pm` members with distinct names; and the output is
topologically closed up to the active names. -/
def SortInvP (pm : List DiscoveredPackage) (aNames : List String) (st : VisitState) : Prop :=
  (∀ n ∈ aNames, n ∈ st.1) ∧
  (∀ n ∈ st.1, n ∈ pkgNames st.2 ∨ n ∈ aNames) ∧
  (∀ n ∈ pkgNames st.2, n ∈ st.1) ∧
  (∀ q ∈ st.2, q ∈ pm) ∧
  (pkgNames st.2).Nodup ∧
  TopoFrom pm aNames st.2

theorem visitFuel_visits_of_pos (pm : List DiscoveredPackage) {fuel : Nat}
    (hf : 0 < fuel) (pkg : DiscoveredPackage) (st : VisitState) :
    pkg.name ∈ (visitFuel pm fuel pkg st).1 := by
  cases fuel with
  | zero => omega
  | succ f => exact visitFuel_visits pm f pkg st

theorem visitChildren_topo (pm : List DiscoveredPackage)
    (_hnd : (pkgNames pm).Nodup) (fuel : Nat)
    (IH : ∀ pkg st A, pkg ∈ pm → (∀ a ∈ A, a ∈ pm) →
      (∀ a ∈ A, Relation.ReflTransGen (edgeOf pm) a pkg) →
      SortInvP pm (pkgNames A) st → missingCount pm st.1 < fuel →
      SortInvP pm (pkgNames A) (visitFuel pm fuel pkg st)) :
    ∀ (ds : List String) (root : DiscoveredPackage) (acc : VisitState)
      (A : List DiscoveredPackage),
      (∀ d ∈ ds, d ∈ root.localDependencies) →
      (∀ a ∈ A, a ∈ pm) →
      (∀ a ∈ A, Relation.ReflTransGen (edgeOf pm) a root) →
      root ∈ A →
      SortInvP pm (pkgNames A) acc →
      missingCount pm acc.1 < fuel →
      SortInvP pm (pkgNames A) (visitChildren pm fuel ds acc) ∧
      (∀ n ∈ acc.1, n ∈ (visitChildren pm fuel ds acc).1) ∧
      missingCount pm (visitChildren pm fuel ds acc).1 < fuel ∧
      (∀ d ∈ ds, ∀ p, lookupPkg pm d = Option.some p →
        p.name ∈ (visitChildren pm fuel ds acc).1) := by
  intro ds
  induction ds with
  | nil =>
    intro root acc A _ _ _ _ hinv hfuel
    rw [visitChildren_nil]
    exact ⟨hinv, fun n hn => hn, hfuel, by simp⟩
  | cons d ds ih =>
    intro root acc A hds hApm hAr hrootA hinv hfuel
    rw [visitChildren_cons]
    cases hlk : lookupPkg pm d with
    | none =>
      simp only [hlk]
      obtain ⟨h₁, h₂, h₃, h₄⟩ := ih root acc A
        (fun d' hd' => hds d' (List.mem_cons_of_mem _ hd')) hApm hAr hrootA hinv hfuel
      refine ⟨h₁, h₂, h₃, ?_⟩
      intro d' hd' p hp
      rcases List.mem_cons.mp hd' with h | h
      · rw [h] at hp
        rw [hlk] at hp
        cases hp
      · exact h₄ d' h p hp
    | some dep =>
      simp only [hlk]
      have hdep : dep ∈ pm := (lookupPkg_mem hlk).1
      have hedge : edgeOf pm root dep := ⟨d, hds d (List.mem_cons_self _ _), hlk⟩
      have hAr' : ∀ a ∈ A, Relation.ReflTransGen (edgeOf pm) a dep :=
        fun a ha => Relation.ReflTransGen.tail (hAr a ha) hedge
      have hmid := IH dep acc A hdep hApm hAr' hinv hfuel
      obtain ⟨t₁, hdel⟩ := visitFuel_delta pm fuel dep acc hdep
      have hmono₁ : ∀ n ∈ acc.1, n ∈ (visitFuel pm fuel dep acc).1 := hdel.2.1
      have hfuel' : missingCount pm (visitFuel pm fuel dep acc).1 < fuel :=
        lt_of_le_of_lt (missingCount_le_of_subset hmono₁) hfuel
      have hdepv : dep.name ∈ (visitFuel pm fuel dep acc).1 :=
        visitFuel_visits_of_pos pm (by omega) dep acc
      obtain ⟨h₁, h₂, h₃, h₄⟩ := ih root (visitFuel pm fuel dep acc) A
        (fun d' hd' => hds d' (List.mem_cons_of_mem _ hd')) hApm hAr hrootA hmid hfuel'
      refine ⟨h₁, fun n hn => h₂ n (hmono₁ n hn), h₃, ?_⟩
      intro d' hd' p hp
      rcases List.mem_cons.mp hd' with h | h
      · rw [h] at hp
        rw [hlk] at hp
        obtain rfl : dep = p := Option.some.inj hp
        exact h₂ dep.name hdepv
      · exact h₄ d' h p hp

theorem visitFuel_topo (pm : List DiscoveredPackage)
    (hnd : (pkgNames pm).Nodup) (hacy : AcyclicE pm) :
    ∀ (fuel : Nat) (pkg : DiscoveredPackage) (st : VisitState)
      (A : List DiscoveredPackage),
      pkg ∈ pm → (∀ a ∈ A, a ∈ pm) →
      (∀ a ∈ A, Relation.ReflTransGen (edgeOf pm) a pkg) →
      SortInvP pm (pkgNames A) st → missingCount pm st.1 < fuel →
      SortInvP pm (pkgNames A) (visitFuel pm fuel pkg st) := by
  intro fuel
  induction fuel with
  | zero =>
    intro pkg st A _ _ _ _ hfuel
    omega
  | succ fuel ihf =>
    intro pkg st A hpkg hApm hAr hinv hfuel
    rw [visitFuel_succ]
    by_cases hv : pkg.name ∈ st.1
    · simp only [hv, if_true]
      exact hinv
    · simp only [hv, if_false]
      obtain ⟨hA1, hB1, hV, hsub, hnods, htopo⟩ := hinv
      have hA'pm : ∀ a ∈ pkg :: A, a ∈ pm := by
        intro a ha
        rcases List.mem_cons.mp ha with h | h
        · exact h ▸ hpkg
        · exact hApm a h
      have hA'r : ∀ a ∈ pkg :: A, Relation.ReflTransGen (edgeOf pm) a pkg := by
        intro a ha
        rcases List.mem_cons.mp ha with h | h
        · exact h ▸ Relation.ReflTransGen.refl
        · exact hAr a h
      have hinv1 : SortInvP pm (pkgNames (pkg :: A)) (pkg.name :: st.1, st.2) := by
        refine ⟨?_, ?_, ?_, hsub, hnods, ?_⟩
        · intro n hn
          rcases List.mem_cons.mp hn with h | h
          · exact h ▸ List.mem_cons_self _ _
          · exact List.mem_cons_of_mem _ (hA1 n h)
        · intro n hn
          rcases List.mem_cons.mp hn with h | h
          · exact Or.inr (h ▸ List.mem_cons_self _ _)
          · rcases hB1 n h with h' | h'
            · exact Or.inl h'
            · exact Or.inr (List.mem_cons_of_mem _ h')
        · intro n hn
          exact List.mem_cons_of_mem _ (hV n hn)
        · exact topoFrom_mono pm _ _ _ (fun n hn => List.mem_cons_of_mem _ hn) htopo
      have hfuel1 : missingCount pm (pkg.name :: st.1) < fuel := by
        have h1 := missingCount_lt hpkg hv
        omega
      obtain ⟨hinv2, hmono2, hfuel2, hdeps2⟩ := visitChildren_topo pm hnd fuel ihf
        pkg.localDependencies pkg (pkg.name :: st.1, st.2) (pkg :: A)
        (fun d hd => hd) hA'pm hA'r (List.mem_cons_self _ _) hinv1 hfuel1
      obtain ⟨t₂, hdel⟩ := visitChildren_delta pm fuel (visitFuel_delta pm fuel)
        pkg.localDependencies pkg (pkg.name :: st.1, st.2) (fun d hd => hd)
      obtain ⟨hde, hdm, hdb, hdp, hdf, hdv, hdn, hdr⟩ := hdel
      obtain ⟨i1, i2, i3, i4, i5, i6⟩ := hinv2
      set ch := visitChildren pm fuel pkg.localDependencies (pkg.name :: st.1, st.2) with hch
      show SortInvP pm (pkgNames A) (ch.1, ch.2 ++ [pkg])
      have hchsplit : ch.2 = st.2 ++ t₂ := hde
      have hnotch : pkg.name ∉ pkgNames ch.2 := by
        rw [hchsplit, pkgNames_append]
        intro hc
        rcases List.mem_append.mp hc with h | h
        · exact hv (hV _ h)
        · simp only [pkgNames, List.mem_map] at h
          obtain ⟨x, hx, hxn⟩ := h
          exact hdf x hx (by rw [hxn]; exact List.mem_cons_self _ _)
      refine ⟨?_, ?_, ?_, ?_, ?_, ?_⟩
      · intro n hn
        exact i1 n (List.mem_cons_of_mem _ hn)
      · intro n hn
        rcases i2 n hn with h | h
        · exact Or.inl (by rw [pkgNames_append]; exact List.mem_append_left _ h)
        · rcases List.mem_cons.mp h with h' | h'
          · refine Or.inl ?_
            rw [pkgNames_append, h']
            refine List.mem_append_right _ ?_
            simp [pkgNames]
          · exact Or.inr h'
      · intro n hn
        rw [pkgNames_append] at hn
        rcases List.mem_append.mp hn with h | h
        · exact i3 n h
        · simp only [pkgNames, List.map_cons, List.map_nil, List.mem_singleton] at h
          exact h ▸ i1 pkg.name (List.mem_cons_self _ _)
      · intro q hq
        rcases List.mem_append.mp hq with h | h
        · exact i4 q h
        · exact (List.mem_singleton.mp h) ▸ hpkg
      · rw [pkgNames_append]
        refine List.Nodup.append i5 (by simp [pkgNames]) ?_
        intro a ha hb
        simp only [pkgNames, List.map_cons, List.map_nil, List.mem_singleton] at hb
        subst hb
        exact hnotch ha
      · rw [topoFrom_append]
        constructor
        · refine topoFrom_transfer pm ch.2 (pkgNames (pkg :: A)) (pkgNames A) i6 ?_
          intro q hq p hp hmem
          rcases List.mem_cons.mp hmem with hpn | hpn
          · exfalso
            have hpm' : p ∈ pm := edgeOf_target_mem hp
            have hppkg : p = pkg := eq_of_name_eq hnd hpm' hpkg hpn
            subst hppkg
            rw [hchsplit] at hq
            rcases List.mem_append.mp hq with hqold | hqnew
            · obtain ⟨pre, suf, heq⟩ := List.append_of_mem hqold
              rcases topoFrom_extract htopo heq p hp with hc | hc
              · have : p.name ∈ pkgNames st.2 := by
                  rw [heq, pkgNames_append]
                  exact List.mem_append_left _ hc
                exact hv (hV _ this)
              · exact hv (hA1 _ hc)
            · exact hacy p hpkg (Relation.TransGen.tail' (hdr q hqnew) hp)
          · exact hpn
        · refine ⟨?_, trivial⟩
          intro p hp
          obtain ⟨d, hd, hlkp⟩ := hp
          have hpv : p.name ∈ ch.1 := hdeps2 d hd p hlkp
          rcases i2 p.name hpv with h | h
          · exact List.mem_append_left _ (List.mem_reverse.mpr h)
          · rcases List.mem_cons.mp h with h' | h'
            · exfalso
              have hpm' : p ∈ pm := (lookupPkg_mem hlkp).1
              have hppkg : p = pkg := eq_of_name_eq hnd hpm' hpkg h'
              subst hppkg
              exact hacy p hpkg (Relation.TransGen.single ⟨d, hd, hlkp⟩)
            · exact List.mem_append_right _ h'

theorem sortFold_topo (pm : List DiscoveredPackage)
    (hnd : (pkgNames pm).Nodup) (hacy : AcyclicE pm) :
    ∀ (l : List DiscoveredPackage) (st : VisitState), (∀ x ∈ l, x ∈ pm) →
      SortInvP pm [] st → SortInvP pm [] (l.foldl (sortStep pm) st) := by
  intro l
  induction l with
  | nil => intro st _ hinv; exact hinv
  | cons x l ih =>
    intro st hl hinv
    have hx : x ∈ pm := hl x (List.mem_cons_self _ _)
    have hstep : SortInvP pm (pkgNames ([] : List DiscoveredPackage))
        (visitFuel pm (pm.length + 1) x st) := by
      refine visitFuel_topo pm hnd hacy (pm.length + 1) x st [] hx ?_ ?_ ?_ ?_
      · intro a ha; cases ha
      · intro a ha; cases ha
      · exact hinv
      · have := missingCount_le pm st.1
        omega
    exact ih (sortStep pm st x) (fun y hy => hl y (List.mem_cons_of_mem _ hy)) hstep

theorem sortByDependencyOrder_topoFrom (pm : List DiscoveredPackage)
    (hnd : (pkgNames pm).Nodup) (hacy : AcyclicDeps pm) :
    TopoFrom pm [] (sortByDependencyOrder pm) := by
  have h := sortFold_topo pm hnd (acyclicE_of_acyclicDeps hacy) pm ([], [])
    (fun x hx => hx)
    ⟨fun n hn => (by cases hn), fun n hn => (by cases hn), fun n hn => (by cases hn),
     fun q hq => (by cases hq), List.nodup_nil, trivial⟩
  exact h.2.2.2.2.2

/-! ## The effectful operations (`src/version.ts`, `src/publish.ts`)

State is explicit: `fs` maps a manifest path to its parsed manifest (a
read is an application, a write is a pointwise update and is recorded in
`writes`), and every external command the program spawns through `run` is
recorded in `commands`; the command's exit code and output come from an
oracle `exec` standing for the operating system. -/

/-- An external command invocation: command, arguments, working
directory. -/
abbrev Cmd := String × List String × String

/-- The observable state the pipeline mutates. -/
structure World where
  fs : String → PackageJson
  writes : List String := []
  commands : List Cmd := []

/-- `src/publish.ts`, `run`: spawn the command, record it, and return the
oracle's exit code and combined output. -/
def runCmd (exec : Cmd → Nat × String) (c : Cmd) (w : World) : World × Nat × String :=
  ({ w with commands := w.commands ++ [c] }, exec c)

/-- `src/publish.ts`, interface `PublishResult` (also `BuildResult`). -/
structure PublishResult where
  success : Bool
  error : Option String := Option.none
deriving DecidableEq, Repr

/-- `src/version.ts`, `updatePackageVersion`: read the manifest, set its
`version` field, and — unless in dry-run mode, which only logs — write it
back. -/
def updatePackageVersion (pkg : DiscoveredPackage) (newVersion : String)
    (dryRun : Bool) (w : World) : World :=
  let m := w.fs pkg.packageJsonPath
  let m' := { m with version := newVersion }
  if dryRun then w
  else
    { w with
      fs := fun p => if p = pkg.packageJsonPath then m' else w.fs p,
      writes := w.writes ++ [pkg.packageJsonPath] }

/-- Model of `s.startsWith(c)` for the single-character prefixes the
source tests (`'^'`, `'~'`): true exactly when the first character of the
string is `c`. -/
def startsWithChar (s : String) (c : Char) : Bool :=
  match s.data with
  | [] => false
  | c' :: _ => c' = c

/-- `src/version.ts`, the new range specifier computed inside
`updateLocalDependencyVersions`: a `^`/`~` range keeps its operator, any
other specifier becomes the bare new version. -/
def newSpec (oldVersion newVersion : String) : String :=
  if startsWithChar oldVersion '^' then "^" ++ newVersion
  else if startsWithChar oldVersion '~' then "~" ++ newVersion
  else newVersion

/-- One dependency entry of a manifest after the inner loop of
`updateLocalDependencyVersions` (non-dry-run): a key naming a workspace
package whose computed specifier differs is overwritten, everything else
is untouched. -/
def rewriteEntry (packageNames : List String) (newVersion : String)
    (e : String × String) : String × String :=
  if packageNames.contains e.1 && (newSpec e.2 newVersion != e.2) then
    (e.1, newSpec e.2 newVersion)
  else e

/-- A whole (optional) dependency map after the inner loop. -/
def rewriteDeps (packageNames : List String) (newVersion : String)
    (m : Option DepMap) : Option DepMap :=
  m.map (List.map (rewriteEntry packageNames newVersion))

/-- Whether the inner loop set `modified` for this map: some entry names
a workspace package and its computed specifier differs. -/
def depMapModified (packageNames : List String) (newVersion : String)
    (m : Option DepMap) : Bool :=
  (m.getD []).any (fun e => packageNames.contains e.1 && (newSpec e.2 newVersion != e.2))

/-- A manifest after the three dependency maps are processed. -/
def manifestRewrite (packageNames : List String) (newVersion : String)
    (m : PackageJson) : PackageJson :=
  { m with
    dependencies := rewriteDeps packageNames newVersion m.dependencies,
    devDependencies := rewriteDeps packageNames newVersion m.devDependencies,
    peerDependencies := rewriteDeps packageNames newVersion m.peerDependencies }

/-- Whether any of the three maps sets `modified`. -/
def manifestModified (packageNames : List String) (newVersion : String)
    (m : PackageJson) : Bool :=
  depMapModified packageNames newVersion m.dependencies
    || depMapModified packageNames newVersion m.devDependencies
    || depMapModified packageNames newVersion m.peerDependencies

/-- `src/version.ts`, `updateLocalDependencyVersions`: for each package
of the set, read its manifest, rewrite the qualifying entries of
`dependencies`, `devDependencies` and `peerDependencies`, and write the
file back only when something was modified; in dry-run mode nothing is
mutated or written (the source only logs per entry). -/
def updateLocalDependencyVersions (packages : List DiscoveredPackage)
    (newVersion : String) (dryRun : Bool) (w : World) : World :=
  let packageNames := packages.map DiscoveredPackage.name
  packages.foldl
    (fun w pkg =>
      let m := w.fs pkg.packageJsonPath
      if dryRun then w
      else if manifestModified packageNames newVersion m then
        { w with
          fs := fun p =>
            if p = pkg.packageJsonPath then manifestRewrite packageNames newVersion m
            else w.fs p,
          writes := w.writes ++ [pkg.packageJsonPath] }
      else w)
    w

/-- `src/publish.ts`, `publishPackage`: in dry-run mode only report;
otherwise spawn `bun publish` (with `--otp` when one was given) in the
package directory and report failure on a nonzero exit code. -/
def publishPackage (exec : Cmd → Nat × String) (pkg : DiscoveredPackage)
    (registry otp : String) (dryRun : Bool) (w : World) : World × PublishResult :=
  if dryRun then (w, { success := true })
  else
    let args := ["publish", "--registry", registry, "--access", "public"]
      ++ (if otp ≠ "" then ["--otp", otp] else [])
    let r := runCmd exec ("bun", args, pkg.path) w
    if r.2.1 ≠ 0 then
      (r.1, { success := false, error := Option.some ("Failed to publish " ++ pkg.name) })
    else (r.1, { success := true })

/-- `src/publish.ts`, `createGitTag`: in dry-run mode only report;
otherwise check `git status --porcelain`, auto-commit when the output is
nonempty, then create the tag, failing on a nonzero exit code. -/
def createGitTag (exec : Cmd → Nat × String) (version cwd : String)
    (dryRun : Bool) (w : World) : World × PublishResult :=
  let tagName := "v" ++ version
  if dryRun then (w, { success := true })
  else
    let st := runCmd exec ("git", ["status", "--porcelain"], cwd) w
    let w₁ :=
      if st.2.2.trim ≠ "" then
        (runCmd exec ("git", ["commit", "-m", "chore: release " ++ tagName], cwd)
          (runCmd exec ("git", ["add", "-A"], cwd) st.1).1).1
      else st.1
    let tr := runCmd exec ("git", ["tag", tagName], cwd) w₁
    if tr.2.1 ≠ 0 then
      (tr.1, { success := false,
               error := Option.some ("Failed to create tag " ++ tagName ++ " (may already exist)") })
    else (tr.1, { success := true })

/-- `src/publish.ts`, `pushGitTag`: in dry-run mode only report;
otherwise push the tag to `origin`, failing on a nonzero exit code. -/
def pushGitTag (exec : Cmd → Nat × String) (version cwd : String)
    (dryRun : Bool) (w : World) : World × PublishResult :=
  let tagName := "v" ++ version
  if dryRun then (w, { success := true })
  else
    let r := runCmd exec ("git", ["push", "origin", tagName], cwd) w
    if r.2.1 ≠ 0 then
      (r.1, { success := false, error := Option.some ("Failed to push tag " ++ tagName) })
    else (r.1, { success := true })

/-! ## CLI argument parsing and the configuration gate (`src/cli.ts`) -/

/-- `src/types.ts`, interface `PublishOptions`, plus the `help` flag
`parseArgs` adds. -/
structure PublishOptions where
  dryRun : Bool := false
  registry : String := ""
  otp : String := ""
  skipBuild : Bool := false
  skipConfirms : Bool := false
  ci : Bool := false
  version : String := ""
  help : Bool := false
deriving DecidableEq, Repr

/-- `src/cli.ts`, the loop body of `parseArgs`: a value-taking flag
consumes the following argument (`args[++i] || ''` is the empty string
when the list is exhausted); unknown arguments are ignored. -/
def parseArgsFrom (opts : PublishOptions) : List String → PublishOptions
  | [] => opts
  | arg :: rest =>
    if arg = "--dry-run" then parseArgsFrom { opts with dryRun := true } rest
    else if arg = "--registry" then
      match rest with
      | v :: rest' => parseArgsFrom { opts with registry := v } rest'
      | [] => { opts with registry := "" }
    else if arg = "--otp" then
      match rest with
      | v :: rest' => parseArgsFrom { opts with otp := v } rest'
      | [] => { opts with otp := "" }
    else if arg = "--skip-build" then parseArgsFrom { opts with skipBuild := true } rest
    else if arg = "--yes" ∨ arg = "-y" then
      parseArgsFrom { opts with skipConfirms := true } rest
    else if arg = "--ci" then parseArgsFrom { opts with ci := true } rest
    else if arg = "--version" then
      match rest with
      | v :: rest' => parseArgsFrom { opts with version := v } rest'
      | [] => { opts with version := "" }
    else if arg = "-h" ∨ arg = "--help" then parseArgsFrom { opts with help := true } rest
    else parseArgsFrom opts rest

/-- `src/cli.ts`, `parseArgs`. -/
def parseArgs (args : List String) : PublishOptions := parseArgsFrom {} args

/-- What `main` does before any pipeline stage runs (`src/cli.ts`): print
usage and exit 0 when `help` is set; report a configuration error and
exit 1 when `--ci` was given without a `--version` value; otherwise
proceed to the pipeline (uncommitted-changes preflight, discovery,
ordering, selection, versioning, build, publish, tag, push). -/
inductive CliAction where
  | printHelpExit0
  | ciConfigErrorExit1
  | proceedToPipeline
deriving DecidableEq, Repr

/-- The gate at the top of `main`: the `help` check, then the CI-mode
validation `options.ci && !options.version` (an empty version string is
falsy). -/
def mainDispatch (o : PublishOptions) : CliAction :=
  if o.help then CliAction.printHelpExit0
  else if o.ci ∧ o.version = "" then CliAction.ciConfigErrorExit1
  else CliAction.proceedToPipeline

/-- The process exit code each gate outcome produces before any pipeline
stage; `Option.none` means the pipeline runs. -/
def cliExitCode : CliAction → Option Nat
  | CliAction.printHelpExit0 => Option.some 0
  | CliAction.ciConfigErrorExit1 => Option.some 1
  | CliAction.proceedToPipeline => Option.none

/-! ## Facts about the version arithmetic -/

theorem natToDecAux_acc : ∀ (fuel n : Nat) (acc : List Char),
    natToDecAux fuel n acc = natToDecAux fuel n [] ++ acc := by
  intro fuel
  induction fuel with
  | zero => intro n acc; rfl
  | succ fuel ih =>
    intro n acc
    show (if n < 10 then _ else _) = (if n < 10 then _ else _) ++ acc
    by_cases h : n < 10
    · simp [h]
    · simp only [h, if_false]
      rw [ih (n / 10) (digitChar (n % 10) :: acc), ih (n / 10) [digitChar (n % 10)]]
      simp

theorem natToDecAux_fuel : ∀ (n f₁ f₂ : Nat) (acc : List Char), n < f₁ → n < f₂ →
    natToDecAux f₁ n acc = natToDecAux f₂ n acc := by
  intro n
  induction n using Nat.strong_induction_on with
  | _ n ih =>
    intro f₁ f₂ acc h₁ h₂
    cases f₁ with
    | zero => omega
    | succ g₁ =>
      cases f₂ with
      | zero => omega
      | succ g₂ =>
        show (if n < 10 then _ else _) = (if n < 10 then _ else _)
        by_cases h : n < 10
        · simp [h]
        · simp only [h, if_false]
          have hlt : n / 10 < n := Nat.div_lt_self (by omega) (by omega)
          exact ih (n / 10) hlt g₁ g₂ _ (by omega) (by omega)

theorem natToDec_eq (n : Nat) :
    natToDec n = if n < 10 then [digitChar n] else natToDec (n / 10) ++ [digitChar (n % 10)] := by
  show natToDecAux (n + 1) n [] = _
  by_cases h : n < 10
  · simp only [h, if_true]
    show (if n < 10 then _ else _) = _
    simp [h]
  · simp only [h, if_false]
    show (if n < 10 then _ else _) = _
    simp only [h, if_false]
    rw [natToDecAux_acc]
    have hlt : n / 10 < n := Nat.div_lt_self (by omega) (by omega)
    rw [natToDecAux_fuel (n / 10) n (n / 10 + 1) [] (by omega) (by omega)]
    rfl

theorem digitChar_facts : ∀ m, m < 10 →
    (digitChar m).isDigit = true ∧ (digitChar m).toNat = 48 + m ∧ digitChar m ≠ '.' := by
  decide

theorem charsVal_append_one (l : List Char) (c : Char) :
    charsVal (l ++ [c]) = 10 * charsVal l + (c.toNat - 48) := by
  show List.foldl _ 0 (l ++ [c]) = _
  rw [List.foldl_append]
  rfl

theorem natToDec_spec : ∀ n : Nat,
    (∀ c ∈ natToDec n, c.isDigit = true ∧ c ≠ '.') ∧
    natToDec n ≠ [] ∧
    charsVal (natToDec n) = n := by
  intro n
  induction n using Nat.strong_induction_on with
  | _ n ih =>
    rw [natToDec_eq]
    by_cases h : n < 10
    · simp only [h, if_true]
      refine ⟨?_, by simp, ?_⟩
      · intro c hc
        rw [List.mem_singleton.mp hc]
        exact ⟨(digitChar_facts n h).1, (digitChar_facts n h).2.2⟩
      · show charsVal ([] ++ [digitChar n]) = n
        rw [charsVal_append_one]
        have := (digitChar_facts n h).2.1
        simp [charsVal, this]
    · simp only [h, if_false]
      have hlt : n / 10 < n := Nat.div_lt_self (by omega) (by omega)
      obtain ⟨hdig, hne, hval⟩ := ih (n / 10) hlt
      have hm : n % 10 < 10 := Nat.mod_lt _ (by omega)
      refine ⟨?_, by simp, ?_⟩
      · intro c hc
        rcases List.mem_append.mp hc with h' | h'
        · exact hdig c h'
        · rw [List.mem_singleton.mp h']
          exact ⟨(digitChar_facts _ hm).1, (digitChar_facts _ hm).2.2⟩
      · rw [charsVal_append_one, hval, (digitChar_facts _ hm).2.1]
        omega

theorem roundToDouble_id_of_le {n : Nat} (h : n ≤ 2 ^ 53) : roundToDouble n = n := by
  rcases Nat.lt_or_ge n (2 ^ 53) with h' | h'
  · rw [roundToDouble, if_pos h']
  · have he : n = 2 ^ 53 := le_antisymm h h'
    subst he
    decide

theorem jsAddOne_safe {n : Nat} (h : n ≤ maxSafeInteger) : jsAddOne n = n + 1 := by
  have hpos : 0 < 2 ^ 53 := pow_pos (by norm_num) 53
  have h' : n + 1 ≤ 2 ^ 53 := by
    simp only [maxSafeInteger] at h
    omega
  rw [jsAddOne]
  exact roundToDouble_id_of_le h'

theorem jsNumber_natToDec (n : Nat) :
    jsNumber (natToDec n) = Option.some (roundToDouble n) := by
  obtain ⟨hdig, -, hval⟩ := natToDec_spec n
  have hall : (natToDec n).all Char.isDigit = true := by
    rw [List.all_eq_true]
    intro c hc
    exact (hdig c hc).1
  simp [jsNumber, hall, hval]

theorem splitDotChars_ne_nil : ∀ l : List Char, splitDotChars l ≠ [] := by
  intro l
  cases l with
  | nil => simp [splitDotChars]
  | cons c rest =>
    show (if c = '.' then _ else _) ≠ []
    by_cases h : c = '.' <;> simp [h]

theorem splitDotChars_no_dot : ∀ l : List Char, '.' ∉ l → splitDotChars l = [l] := by
  intro l
  induction l with
  | nil => intro _; rfl
  | cons c rest ih =>
    intro hnd
    have hc : c ≠ '.' := fun h => hnd (h ▸ List.mem_cons_self _ _)
    have hrest : '.' ∉ rest := fun h => hnd (List.mem_cons_of_mem _ h)
    show (if c = '.' then _ else _) = _
    simp only [hc, if_false]
    rw [ih hrest]
    rfl

theorem splitDotChars_append : ∀ (a r : List Char), '.' ∉ a →
    splitDotChars (a ++ '.' :: r) = a :: splitDotChars r := by
  intro a
  induction a with
  | nil =>
    intro r _
    simp [splitDotChars]
  | cons c a ih =>
    intro r hnd
    have hc : c ≠ '.' := fun h => hnd (h ▸ List.mem_cons_self _ _)
    have ha : '.' ∉ a := fun h => hnd (List.mem_cons_of_mem _ h)
    show (if c = '.' then _ else _) = _
    simp only [hc, if_false]
    have ih' : splitDotChars (a.append ('.' :: r)) = a :: splitDotChars r := ih r ha
    rw [ih']
    rfl

theorem no_dot_natToDec (n : Nat) : '.' ∉ natToDec n :=
  fun h => ((natToDec_spec n).1 '.' h).2 rfl

theorem verString_data (x y z : Nat) :
    (verString x y z).data = natToDec x ++ '.' :: (natToDec y ++ '.' :: natToDec z) := by
  simp [verString]

theorem bumpVersion_parts (x y z : Nat) :
    (splitDotChars (verString x y z).data).map jsNumber
      = [Option.some (roundToDouble x), Option.some (roundToDouble y),
         Option.some (roundToDouble z)] := by
  rw [verString_data,
    splitDotChars_append (natToDec x) _ (no_dot_natToDec x),
    splitDotChars_append (natToDec y) _ (no_dot_natToDec y),
    splitDotChars_no_dot (natToDec z) (no_dot_natToDec z)]
  simp [jsNumber_natToDec]

theorem natToDec_zero : natToDec 0 = ['0'] := by decide

theorem bumpVersion_verString (x y z : Nat)
    (hx : x ≤ maxSafeInteger) (hy : y ≤ maxSafeInteger) (hz : z ≤ maxSafeInteger) :
    bumpVersion (verString x y z) VersionBumpType.major = verString (x + 1) 0 0 ∧
    bumpVersion (verString x y z) VersionBumpType.minor = verString x (y + 1) 0 ∧
    bumpVersion (verString x y z) VersionBumpType.patch = verString x y (z + 1) := by
  have hsub : maxSafeInteger ≤ 2 ^ 53 := Nat.sub_le _ _
  have hp := bumpVersion_parts x y z
  rw [roundToDouble_id_of_le (le_trans hx hsub),
    roundToDouble_id_of_le (le_trans hy hsub),
    roundToDouble_id_of_le (le_trans hz hsub)] at hp
  have hax := jsAddOne_safe hx
  have hay := jsAddOne_safe hy
  have haz := jsAddOne_safe hz
  refine ⟨?_, ?_, ?_⟩ <;>
  · simp only [bumpVersion]
    rw [hp]
    simp [List.getD, renderNum, verString, natToDec_zero, hax, hay, haz]

/-! ## Facts about discovery -/

theorem firstDedupAux_spec : ∀ (l seen : List String),
    (firstDedupAux seen l).Nodup ∧
    (∀ x, x ∈ firstDedupAux seen l ↔ (x ∈ l ∧ x ∉ seen)) := by
  intro l
  induction l with
  | nil => intro seen; exact ⟨List.nodup_nil, by simp [firstDedupAux]⟩
  | cons x xs ih =>
    intro seen
    have hstep : firstDedupAux seen (x :: xs)
        = if x ∈ seen then firstDedupAux seen xs
          else x :: firstDedupAux (x :: seen) xs := rfl
    rw [hstep]
    by_cases hx : x ∈ seen
    · simp only [hx, if_true]
      obtain ⟨hnd, hmem⟩ := ih seen
      refine ⟨hnd, ?_⟩
      intro y
      rw [hmem y]
      constructor
      · rintro ⟨hy, hys⟩
        exact ⟨List.mem_cons_of_mem _ hy, hys⟩
      · rintro ⟨hy, hys⟩
        rcases List.mem_cons.mp hy with h | h
        · exact absurd (h ▸ hx) hys
        · exact ⟨h, hys⟩
    · simp only [hx, if_false]
      obtain ⟨hnd, hmem⟩ := ih (x :: seen)
      refine ⟨?_, ?_⟩
      · rw [List.nodup_cons]
        refine ⟨fun hc => ?_, hnd⟩
        exact ((hmem x).mp hc).2 (List.mem_cons_self _ _)
      · intro y
        rw [List.mem_cons, hmem y]
        constructor
        · rintro (rfl | ⟨hy, hys⟩)
          · exact ⟨List.mem_cons_self _ _, hx⟩
          · exact ⟨List.mem_cons_of_mem _ hy,
              fun hc => hys (List.mem_cons_of_mem _ hc)⟩
        · rintro ⟨hy, hys⟩
          rcases List.mem_cons.mp hy with h | h
          · exact Or.inl h
          · by_cases hyx : y = x
            · exact Or.inl hyx
            · refine Or.inr ⟨h, ?_⟩
              intro hc
              rcases List.mem_cons.mp hc with h' | h'
              · exact hyx h'
              · exact hys h'

theorem firstDedup_nodup (l : List String) : (firstDedup l).Nodup :=
  (firstDedupAux_spec l []).1

theorem firstDedup_mem (l : List String) (x : String) :
    x ∈ firstDedup l ↔ x ∈ l := by
  rw [firstDedup, (firstDedupAux_spec l []).2 x]
  simp

theorem findLocalDependencies_nodup (j : PackageJson) (ns : List String) :
    (findLocalDependencies j ns).Nodup :=
  (firstDedup_nodup (depNamesUnion j)).filter _

theorem findLocalDependencies_mem (j : PackageJson) (ns : List String) (d : String) :
    d ∈ findLocalDependencies j ns ↔ (d ∈ depNamesUnion j ∧ d ∈ ns) := by
  rw [findLocalDependencies, List.mem_filter, firstDedup_mem]
  constructor
  · rintro ⟨h₁, h₂⟩
    exact ⟨h₁, by simpa using h₂⟩
  · rintro ⟨h₁, h₂⟩
    exact ⟨h₁, by simpa using h₂⟩

theorem mem_discoverPackagesFrom {cs : List (String × Option PackageJson)}
    {P : DiscoveredPackage} :
    P ∈ discoverPackagesFrom cs ↔
      ∃ dir j, (dir, Option.some j) ∈ cs ∧ P = mkDiscovered dir j (loadedNames cs) := by
  rw [discoverPackagesFrom, List.mem_map]
  constructor
  · rintro ⟨c, hmem, rfl⟩
    rw [List.mem_filterMap] at hmem
    obtain ⟨c', hc', ho⟩ := hmem
    rw [Option.map_eq_some'] at ho
    obtain ⟨j', hj', heq⟩ := ho
    refine ⟨c.1, c.2, ?_, rfl⟩
    rw [← heq]
    show (c'.1, Option.some j') ∈ cs
    rw [← hj']
    exact hc'
  · rintro ⟨dir, j, hc, rfl⟩
    refine ⟨(dir, j), ?_, rfl⟩
    rw [List.mem_filterMap]
    exact ⟨(dir, Option.some j), hc, rfl⟩

theorem discover_names_aux :
    ∀ (cs : List (String × Option PackageJson)) (ns : List String),
      pkgNames ((cs.filterMap (fun c => c.2.map (fun j => (c.1, j)))).map
        (fun c => mkDiscovered c.1 c.2 ns)) = loadedNames cs := by
  intro cs ns
  induction cs with
  | nil => rfl
  | cons c cs ih =>
    cases hc : c.2 with
    | none =>
      have h1 : loadedNames (c :: cs) = loadedNames cs := by
        simp [loadedNames, List.filterMap_cons, hc]
      rw [h1]
      simp only [List.filterMap_cons, hc, Option.map_none']
      exact ih
    | some j =>
      have h1 : loadedNames (c :: cs) = j.name :: loadedNames cs := by
        simp [loadedNames, List.filterMap_cons, hc]
      rw [h1]
      simp only [List.filterMap_cons, hc, Option.map_some']
      rw [List.map_cons, pkgNames, List.map_cons]
      show (mkDiscovered c.1 j ns).name :: _ = _
      rw [show (mkDiscovered c.1 j ns).name = j.name from rfl]
      exact congrArg _ ih

theorem pkgNames_discoverPackagesFrom (cs : List (String × Option PackageJson)) :
    pkgNames (discoverPackagesFrom cs) = loadedNames cs :=
  discover_names_aux cs (loadedNames cs)

/-! ## Ordering ignores the private flag -/

/-- Replace a package's `isPrivate` flag (everything the DFS looks at —
name and local dependencies — is untouched). -/
def setPrivate (b : Bool) (p : DiscoveredPackage) : DiscoveredPackage :=
  { p with isPrivate := b }

theorem lookupPkg_setPrivate (b : Bool) :
    ∀ (pm : List DiscoveredPackage) (n : String),
      lookupPkg (pm.map (setPrivate b)) n = (lookupPkg pm n).map (setPrivate b) := by
  intro pm
  induction pm with
  | nil => intro n; rfl
  | cons p pm ih =>
    intro n
    show (match lookupPkg (pm.map (setPrivate b)) n with
          | Option.some q => Option.some q
          | Option.none =>
            if (setPrivate b p).name = n then Option.some (setPrivate b p) else Option.none)
        = Option.map (setPrivate b)
          (match lookupPkg pm n with
           | Option.some q => Option.some q
           | Option.none => if p.name = n then Option.some p else Option.none)
    rw [ih n]
    cases lookupPkg pm n with
    | some q => rfl
    | none =>
      show (if p.name = n then Option.some (setPrivate b p) else Option.none)
          = Option.map (setPrivate b) (if p.name = n then Option.some p else Option.none)
      by_cases h : p.name = n <;> simp [h]

theorem visitChildren_setPrivate (b : Bool) (pm : List DiscoveredPackage) (fuel : Nat)
    (IH : ∀ pkg st, visitFuel (pm.map (setPrivate b)) fuel (setPrivate b pkg)
        (st.1, st.2.map (setPrivate b))
      = ((visitFuel pm fuel pkg st).1, (visitFuel pm fuel pkg st).2.map (setPrivate b))) :
    ∀ (ds : List String) (acc : VisitState),
      visitChildren (pm.map (setPrivate b)) fuel ds (acc.1, acc.2.map (setPrivate b))
        = ((visitChildren pm fuel ds acc).1,
           (visitChildren pm fuel ds acc).2.map (setPrivate b)) := by
  intro ds
  induction ds with
  | nil => intro acc; rfl
  | cons d ds ih =>
    intro acc
    rw [visitChildren_cons, visitChildren_cons, lookupPkg_setPrivate]
    cases hlk : lookupPkg pm d with
    | none => exact ih acc
    | some dep =>
      show visitChildren (pm.map (setPrivate b)) fuel ds
          (visitFuel (pm.map (setPrivate b)) fuel (setPrivate b dep)
            (acc.1, acc.2.map (setPrivate b))) = _
      rw [IH dep acc]
      exact ih (visitFuel pm fuel dep acc)

theorem visitFuel_setPrivate (b : Bool) (pm : List DiscoveredPackage) :
    ∀ (fuel : Nat) (pkg : DiscoveredPackage) (st : VisitState),
      visitFuel (pm.map (setPrivate b)) fuel (setPrivate b pkg)
        (st.1, st.2.map (setPrivate b))
      = ((visitFuel pm fuel pkg st).1, (visitFuel pm fuel pkg st).2.map (setPrivate b)) := by
  intro fuel
  induction fuel with
  | zero => intro pkg st; rfl
  | succ fuel ih =>
    intro pkg st
    rw [visitFuel_succ, visitFuel_succ]
    by_cases hv : pkg.name ∈ st.1
    · have : (setPrivate b pkg).name = pkg.name := rfl
      simp only [this, hv, if_true]
    · have hn : (setPrivate b pkg).name = pkg.name := rfl
      simp only [hn, hv, if_false]
      have hd : (setPrivate b pkg).localDependencies = pkg.localDependencies := rfl
      rw [hd]
      have := visitChildren_setPrivate b pm fuel ih pkg.localDependencies
        (pkg.name :: st.1, st.2)
      show (let st2 := visitChildren (pm.map (setPrivate b)) fuel pkg.localDependencies
              (pkg.name :: st.1, st.2.map (setPrivate b));
            (st2.1, st2.2 ++ [setPrivate b pkg])) = _
      rw [show (pkg.name :: st.1, st.2.map (setPrivate b))
          = ((pkg.name :: st.1, st.2).1, (pkg.name :: st.1, st.2).2.map (setPrivate b)) from rfl,
        this]
      simp

theorem sortByDependencyOrder_setPrivate (b : Bool) (pm : List DiscoveredPackage) :
    sortByDependencyOrder (pm.map (setPrivate b))
      = (sortByDependencyOrder pm).map (setPrivate b) := by
  rw [sortByDependencyOrder_eq_foldl, sortByDependencyOrder_eq_foldl]
  have hlen : (pm.map (setPrivate b)).length = pm.length := List.length_map _ _
  have haux : ∀ (l : List DiscoveredPackage) (st : VisitState),
      (l.map (setPrivate b)).foldl (sortStep (pm.map (setPrivate b)))
        (st.1, st.2.map (setPrivate b))
      = ((l.foldl (sortStep pm) st).1, (l.foldl (sortStep pm) st).2.map (setPrivate b)) := by
    intro l
    induction l with
    | nil => intro st; rfl
    | cons x l ih =>
      intro st
      rw [List.map_cons, List.foldl_cons, List.foldl_cons]
      have hstep : sortStep (pm.map (setPrivate b)) (st.1, st.2.map (setPrivate b))
          (setPrivate b x)
          = ((sortStep pm st x).1, (sortStep pm st x).2.map (setPrivate b)) := by
        simp only [sortStep, hlen]
        exact visitFuel_setPrivate b pm (pm.length + 1) x st
      rw [hstep]
      exact ih (sortStep pm st x)
  have h0 : (pm.map (setPrivate b)).foldl (sortStep (pm.map (setPrivate b))) ([], [])
      = ((pm.foldl (sortStep pm) ([], [])).1,
         (pm.foldl (sortStep pm) ([], [])).2.map (setPrivate b)) :=
    haux pm ([], [])
  rw [h0]

/-! ## Facts about the manifest-rewriting operations -/

/-- The fold step of `updateLocalDependencyVersions` for one package. -/
def updateLDStep (packageNames : List String) (newVersion : String) (dryRun : Bool)
    (w : World) (pkg : DiscoveredPackage) : World :=
  let m := w.fs pkg.packageJsonPath
  if dryRun then w
  else if manifestModified packageNames newVersion m then
    { w with
      fs := fun p =>
        if p = pkg.packageJsonPath then manifestRewrite packageNames newVersion m
        else w.fs p,
      writes := w.writes ++ [pkg.packageJsonPath] }
  else w

theorem updateLocalDependencyVersions_eq (packages : List DiscoveredPackage)
    (newVersion : String) (dryRun : Bool) (w : World) :
    updateLocalDependencyVersions packages newVersion dryRun w
      = packages.foldl (updateLDStep (packages.map DiscoveredPackage.name) newVersion dryRun) w :=
  rfl

theorem updateLDStep_self (ns : List String) (newV : String) (w : World)
    (pkg : DiscoveredPackage) :
    (updateLDStep ns newV false w pkg).fs pkg.packageJsonPath
      = (if manifestModified ns newV (w.fs pkg.packageJsonPath)
         then manifestRewrite ns newV (w.fs pkg.packageJsonPath)
         else w.fs pkg.packageJsonPath) := by
  rw [updateLDStep]
  by_cases h : manifestModified ns newV (w.fs pkg.packageJsonPath) <;> simp [h]

theorem updateLDStep_other (ns : List String) (newV : String) (w : World)
    (pkg : DiscoveredPackage) {q : String} (hq : q ≠ pkg.packageJsonPath) :
    (updateLDStep ns newV false w pkg).fs q = w.fs q := by
  rw [updateLDStep]
  by_cases h : manifestModified ns newV (w.fs pkg.packageJsonPath) <;> simp [h, hq]

theorem updateLDStep_writes (ns : List String) (newV : String) (w : World)
    (pkg : DiscoveredPackage) (q : String) :
    (q ∈ (updateLDStep ns newV false w pkg).writes ↔
      q ∈ w.writes ∨
        (q = pkg.packageJsonPath ∧
         manifestModified ns newV (w.fs pkg.packageJsonPath) = true)) := by
  rw [updateLDStep]
  by_cases h : manifestModified ns newV (w.fs pkg.packageJsonPath)
  · simp [h]
  · simp [h]

theorem updateLDStep_commands (ns : List String) (newV : String) (w : World)
    (pkg : DiscoveredPackage) :
    (updateLDStep ns newV false w pkg).commands = w.commands := by
  rw [updateLDStep]
  by_cases h : manifestModified ns newV (w.fs pkg.packageJsonPath) <;> simp [h]

theorem updateLD_fold (ns : List String) (newV : String) :
    ∀ (l : List DiscoveredPackage) (w : World),
      (l.map DiscoveredPackage.packageJsonPath).Nodup →
      (∀ q, q ∉ l.map DiscoveredPackage.packageJsonPath →
          ((l.foldl (updateLDStep ns newV false) w).fs q = w.fs q ∧
           (q ∈ (l.foldl (updateLDStep ns newV false) w).writes ↔ q ∈ w.writes))) ∧
      (∀ pkg ∈ l,
          ((l.foldl (updateLDStep ns newV false) w).fs pkg.packageJsonPath
            = (if manifestModified ns newV (w.fs pkg.packageJsonPath)
               then manifestRewrite ns newV (w.fs pkg.packageJsonPath)
               else w.fs pkg.packageJsonPath)) ∧
          (pkg.packageJsonPath ∈ (l.foldl (updateLDStep ns newV false) w).writes ↔
            pkg.packageJsonPath ∈ w.writes ∨
              manifestModified ns newV (w.fs pkg.packageJsonPath) = true)) ∧
      (l.foldl (updateLDStep ns newV false) w).commands = w.commands := by
  intro l
  induction l with
  | nil =>
    intro w _
    exact ⟨fun q _ => ⟨rfl, Iff.rfl⟩, fun pkg hpkg => absurd hpkg (List.not_mem_nil _), rfl⟩
  | cons pkg l ih =>
    intro w hnd
    rw [List.map_cons, List.nodup_cons] at hnd
    obtain ⟨hpnotin, hndl⟩ := hnd
    rw [List.foldl_cons]
    obtain ⟨ihframe, ihmem, ihcmd⟩ := ih (updateLDStep ns newV false w pkg) hndl
    refine ⟨?_, ?_, ?_⟩
    · intro q hq
      rw [List.map_cons, List.mem_cons] at hq
      push_neg at hq
      obtain ⟨hq1, hq2⟩ := hq
      obtain ⟨hfs, hwr⟩ := ihframe q hq2
      refine ⟨?_, ?_⟩
      · rw [hfs, updateLDStep_other ns newV w pkg hq1]
      · rw [hwr, updateLDStep_writes]
        constructor
        · rintro (h | ⟨h, -⟩)
          · exact h
          · exact absurd h hq1
        · exact Or.inl
    · intro x hx
      rcases List.mem_cons.mp hx with rfl | hxl
      · obtain ⟨hfs, hwr⟩ := ihframe x.packageJsonPath hpnotin
        refine ⟨?_, ?_⟩
        · rw [hfs, updateLDStep_self]
        · rw [hwr, updateLDStep_writes]
          constructor
          · rintro (h | ⟨-, h⟩)
            · exact Or.inl h
            · exact Or.inr h
          · rintro (h | h)
            · exact Or.inl h
            · exact Or.inr ⟨rfl, h⟩
      · have hxp : x.packageJsonPath ≠ pkg.packageJsonPath := by
          intro hc
          exact hpnotin (hc ▸ List.mem_map_of_mem DiscoveredPackage.packageJsonPath hxl)
        obtain ⟨hfs, hwr⟩ := ihmem x hxl
        have hsame : (updateLDStep ns newV false w pkg).fs x.packageJsonPath
            = w.fs x.packageJsonPath := updateLDStep_other ns newV w pkg hxp
        refine ⟨?_, ?_⟩
        · rw [hfs, hsame]
        · rw [hwr, hsame, updateLDStep_writes]
          constructor
          · rintro (⟨h | ⟨h, -⟩⟩ | h)
            · exact Or.inl h
            · exact absurd h hxp
            · exact Or.inr h
          · rintro (h | h)
            · exact Or.inl (Or.inl h)
            · exact Or.inr h
    · rw [ihcmd, updateLDStep_commands]

theorem rewriteEntry_mem {ns : List String} {newV : String} {l : DepMap}
    {k v : String} (h : (k, v) ∈ l) :
    (k ∈ ns → (k, newSpec v newV) ∈ l.map (rewriteEntry ns newV)) ∧
    (k ∉ ns → (k, v) ∈ l.map (rewriteEntry ns newV)) := by
  constructor
  · intro hk
    refine List.mem_map.mpr ⟨(k, v), h, ?_⟩
    rw [rewriteEntry]
    by_cases hd : newSpec v newV = v
    · rw [if_neg (by simp [hd])]
      rw [hd]
    · rw [if_pos (by simp [hk, hd])]
  · intro hk
    refine List.mem_map.mpr ⟨(k, v), h, ?_⟩
    rw [rewriteEntry]
    rw [if_neg (by simp [hk])]

theorem not_modified_entry {ns : List String} {newV : String} {m : Option DepMap}
    (h : depMapModified ns newV m = false) :
    ∀ k v, (k, v) ∈ m.getD [] → k ∈ ns → newSpec v newV = v := by
  intro k v hkv hk
  rw [depMapModified, List.any_eq_false] at h
  have h2 := h (k, v) hkv
  by_contra hne
  apply h2
  simp [hk, hne]

theorem newSpec_caret {v nv : String} (h : startsWithChar v '^' = true) :
    newSpec v nv = "^" ++ nv := by
  rw [newSpec, if_pos h]

theorem newSpec_tilde {v nv : String} (h₁ : startsWithChar v '^' = false)
    (h₂ : startsWithChar v '~' = true) : newSpec v nv = "~" ++ nv := by
  rw [newSpec, if_neg (by simp [h₁]), if_pos h₂]

theorem newSpec_bare {v nv : String} (h₁ : startsWithChar v '^' = false)
    (h₂ : startsWithChar v '~' = false) : newSpec v nv = nv := by
  rw [newSpec, if_neg (by simp [h₁]), if_neg (by simp [h₂])]

/-- The shape of one dependency map after `updateLocalDependencyVersions`
(non-dry-run): every entry naming a workspace package is present with the
new version and its original range-operator style, every other entry is
untouched. -/
def RewrittenMap (ns : List String) (newVersion : String)
    (old new : Option DepMap) : Prop :=
  ∀ k v, (k, v) ∈ old.getD [] →
    (k ∈ ns →
      (startsWithChar v '^' = true → (k, "^" ++ newVersion) ∈ new.getD []) ∧
      (startsWithChar v '^' = false → startsWithChar v '~' = true →
        (k, "~" ++ newVersion) ∈ new.getD []) ∧
      (startsWithChar v '^' = false → startsWithChar v '~' = false →
        (k, newVersion) ∈ new.getD [])) ∧
    (k ∉ ns → (k, v) ∈ new.getD [])

theorem rewriteDeps_getD (ns : List String) (nv : String) (old : Option DepMap) :
    (rewriteDeps ns nv old).getD [] = (old.getD []).map (rewriteEntry ns nv) := by
  cases old with
  | none => rfl
  | some l => rfl

theorem rewrittenMap_rewrite (ns : List String) (nv : String) (old : Option DepMap) :
    RewrittenMap ns nv old (rewriteDeps ns nv old) := by
  intro k v hkv
  rw [rewriteDeps_getD]
  obtain ⟨hin, hout⟩ := @rewriteEntry_mem ns nv (old.getD []) k v hkv
  refine ⟨?_, hout⟩
  intro hk
  refine ⟨?_, ?_, ?_⟩
  · intro hc
    have := hin hk
    rwa [newSpec_caret hc] at this
  · intro hc₁ hc₂
    have := hin hk
    rwa [newSpec_tilde hc₁ hc₂] at this
  · intro hc₁ hc₂
    have := hin hk
    rwa [newSpec_bare hc₁ hc₂] at this

theorem rewrittenMap_id (ns : List String) (nv : String) (old : Option DepMap)
    (h : depMapModified ns nv old = false) :
    RewrittenMap ns nv old old := by
  intro k v hkv
  refine ⟨?_, fun _ => hkv⟩
  intro hk
  have hfix : newSpec v nv = v := not_modified_entry h k v hkv hk
  refine ⟨?_, ?_, ?_⟩
  · intro hc
    rw [← newSpec_caret hc, hfix]
    exact hkv
  · intro hc₁ hc₂
    rw [← newSpec_tilde hc₁ hc₂, hfix]
    exact hkv
  · intro hc₁ hc₂
    have hnv : nv = v := (newSpec_bare hc₁ hc₂).symm.trans hfix
    rw [hnv]
    exact hkv

theorem manifestModified_false (ns : List String) (nv : String) (m : PackageJson)
    (h : manifestModified ns nv m = false) :
    depMapModified ns nv m.dependencies = false ∧
    depMapModified ns nv m.devDependencies = false ∧
    depMapModified ns nv m.peerDependencies = false := by
  rw [manifestModified] at h
  simp only [Bool.or_eq_false_iff] at h
  exact ⟨h.1.1, h.1.2, h.2⟩

theorem manifestModified_iff (ns : List String) (nv : String) (m : PackageJson) :
    manifestModified ns nv m = true ↔
      ∃ kv ∈ (m.dependencies.getD [] ++ m.devDependencies.getD []
              ++ m.peerDependencies.getD []),
        kv.1 ∈ ns ∧ newSpec kv.2 nv ≠ kv.2 := by
  rw [manifestModified]
  simp only [Bool.or_eq_true, depMapModified, List.any_eq_true, Bool.and_eq_true,
    bne_iff_ne, ne_eq, List.mem_append]
  constructor
  · rintro ((⟨kv, hm, hc, hd⟩ | ⟨kv, hm, hc, hd⟩) | ⟨kv, hm, hc, hd⟩)
    · exact ⟨kv, Or.inl (Or.inl hm), by simpa using hc, hd⟩
    · exact ⟨kv, Or.inl (Or.inr hm), by simpa using hc, hd⟩
    · exact ⟨kv, Or.inr hm, by simpa using hc, hd⟩
  · rintro ⟨kv, (hm | hm) | hm, hc, hd⟩
    · exact Or.inl (Or.inl ⟨kv, hm, by simpa using hc, hd⟩)
    · exact Or.inl (Or.inr ⟨kv, hm, by simpa using hc, hd⟩)
    · exact Or.inr ⟨kv, hm, by simpa using hc, hd⟩

/-! ## Concrete inputs used to instantiate the claim theorems -/

/-- Diamond: `a` depends on `b` and `c`; `b` and `c` both depend on `d`. -/
def pkgDiamondA : DiscoveredPackage :=
  ⟨"a", "1.0.0", "/w/a", "/w/a/package.json", false, ["b", "c"]⟩

def pkgDiamondB : DiscoveredPackage :=
  ⟨"b", "1.0.0", "/w/b", "/w/b/package.json", false, ["d"]⟩

def pkgDiamondC : DiscoveredPackage :=
  ⟨"c", "1.0.0", "/w/c", "/w/c/package.json", false, ["d"]⟩

def pkgDiamondD : DiscoveredPackage :=
  ⟨"d", "1.0.0", "/w/d", "/w/d/package.json", false, []⟩

def diamond : List DiscoveredPackage :=
  [pkgDiamondA, pkgDiamondB, pkgDiamondC, pkgDiamondD]

/-- A rank certifying the diamond's acyclicity. -/
def diamondRank (n : String) : Nat :=
  if n = "a" then 2 else if n = "d" then 0 else 1

/-- A two-cycle: `a` and `b` depend on each other. -/
def pkgCycleA : DiscoveredPackage :=
  ⟨"a", "1.0.0", "/w/a", "/w/a/package.json", false, ["b"]⟩

def pkgCycleB : DiscoveredPackage :=
  ⟨"b", "1.0.0", "/w/b", "/w/b/package.json", false, ["a"]⟩

def cyclePkgs : List DiscoveredPackage := [pkgCycleA, pkgCycleB]

/-- `a` depends on `c`; `b` and `c` are isolated.  The DFS emits `c`
while visiting `a`, so `c` overtakes `b` in the output. -/
def pkgStabA : DiscoveredPackage :=
  ⟨"a", "1.0.0", "/w/a", "/w/a/package.json", false, ["c"]⟩

def pkgStabB : DiscoveredPackage :=
  ⟨"b", "1.0.0", "/w/b", "/w/b/package.json", false, []⟩

def pkgStabC : DiscoveredPackage :=
  ⟨"c", "1.0.0", "/w/c", "/w/c/package.json", false, []⟩

def stabList : List DiscoveredPackage := [pkgStabA, pkgStabB, pkgStabC]

/-! ## The claims -/

/-- C1: for every input list of Discovered Packages (pairwise-distinct
names, as the data model guarantees for one discovery run) whose
local-dependency graph is acyclic, `sortByDependencyOrder` places every
package strictly before any package that names it in
`localDependencies`. -/
theorem sortByDependencyOrder_topological (pm : List DiscoveredPackage)
    (hnd : (pkgNames pm).Nodup) (hacy : AcyclicDeps pm) :
    ∀ p q, p ∈ pm → q ∈ pm → p.name ∈ q.localDependencies →
      (sortByDependencyOrder pm).indexOf p < (sortByDependencyOrder pm).indexOf q := by
  intro p q hp hq hdep
  have htopo := sortByDependencyOrder_topoFrom pm hnd hacy
  obtain ⟨hsub, hnds, -⟩ := sortByDependencyOrder_basic pm
  have hqmem : q ∈ sortByDependencyOrder pm := sortByDependencyOrder_mem pm hnd hq
  obtain ⟨pre, suf, heq⟩ := List.append_of_mem hqmem
  have hedge : edgeOf pm q p := ⟨p.name, hdep, lookupPkg_of_mem hnd hp⟩
  rcases topoFrom_extract htopo heq p hedge with hpre | hnil
  swap
  · cases hnil
  simp only [pkgNames, List.mem_map] at hpre
  obtain ⟨x, hxpre, hxn⟩ := hpre
  have hxs : x ∈ sortByDependencyOrder pm := by
    rw [heq]
    exact List.mem_append_left _ hxpre
  have hxp : x = p := eq_of_name_eq hnd (hsub x hxs) hp hxn
  subst hxp
  have hel : (sortByDependencyOrder pm).Nodup := List.Nodup.of_map _ hnds
  have hqpre : q ∉ pre := by
    intro hc
    rw [heq, List.nodup_append] at hel
    exact hel.2.2 hc (List.mem_cons_self _ _)
  rw [heq]
  have h1 : List.indexOf x (pre ++ q :: suf) = List.indexOf x pre :=
    List.indexOf_append_of_mem hxpre
  have h2 : List.indexOf x pre < pre.length := List.indexOf_lt_length.mpr hxpre
  have h3 : List.indexOf q (pre ++ q :: suf) = pre.length + List.indexOf q (q :: suf) :=
    List.indexOf_append_of_not_mem hqpre
  have h4 : List.indexOf q (q :: suf) = 0 := List.indexOf_cons_self q suf
  show List.indexOf x _ < List.indexOf q _
  omega

/-- C1 witness: the diamond.  The hypotheses hold, the theorem yields
`d` before `b` and `b` before `a`, and the full order is
`[d, b, c, a]` — `d` first, `a` last. -/
theorem sortByDependencyOrder_topological_witness :
    (pkgNames diamond).Nodup ∧ AcyclicDeps diamond ∧
    (sortByDependencyOrder diamond).indexOf pkgDiamondD
      < (sortByDependencyOrder diamond).indexOf pkgDiamondB ∧
    (sortByDependencyOrder diamond).indexOf pkgDiamondB
      < (sortByDependencyOrder diamond).indexOf pkgDiamondA ∧
    sortByDependencyOrder diamond
      = [pkgDiamondD, pkgDiamondB, pkgDiamondC, pkgDiamondA] := by
  have hnd : (pkgNames diamond).Nodup := by decide
  have hacy : AcyclicDeps diamond := acyclicDeps_of_rank diamond diamondRank (by decide)
  exact ⟨hnd, hacy,
    sortByDependencyOrder_topological diamond hnd hacy pkgDiamondD pkgDiamondB
      (by decide) (by decide) (by decide),
    sortByDependencyOrder_topological diamond hnd hacy pkgDiamondB pkgDiamondA
      (by decide) (by decide) (by decide),
    by decide⟩

/-- C2: for every input with pairwise-distinct names — cyclic
local-dependency graphs included — `sortByDependencyOrder` (a total
function; the DFS recursion is bounded by the visited set) returns a list
containing each input package exactly once. -/
theorem sortByDependencyOrder_count_one (pm : List DiscoveredPackage)
    (hnd : (pkgNames pm).Nodup) :
    ∀ p ∈ pm, (sortByDependencyOrder pm).count p = 1 := by
  intro p hp
  have hmem : p ∈ sortByDependencyOrder pm := sortByDependencyOrder_mem pm hnd hp
  have hnds := (sortByDependencyOrder_basic pm).2.1
  exact List.count_eq_one_of_mem (List.Nodup.of_map _ hnds) hmem

/-- C2 witness: the two-cycle `a ↔ b`; the sort terminates with output
`[b, a]`, each package exactly once. -/
theorem sortByDependencyOrder_count_one_witness :
    (pkgNames cyclePkgs).Nodup ∧
    (sortByDependencyOrder cyclePkgs).count pkgCycleA = 1 ∧
    (sortByDependencyOrder cyclePkgs).count pkgCycleB = 1 ∧
    sortByDependencyOrder cyclePkgs = [pkgCycleB, pkgCycleA] := by
  have hnd : (pkgNames cyclePkgs).Nodup := by decide
  exact ⟨hnd,
    sortByDependencyOrder_count_one cyclePkgs hnd pkgCycleA (by decide),
    sortByDependencyOrder_count_one cyclePkgs hnd pkgCycleB (by decide),
    by decide⟩

/-- C3 counterexample: `bumpVersion` does not increment every major
component.  At `X = 9007199254740993 = 2 ^ 53 + 1`, `Number` parses the
component to the double `2 ^ 53` (the tie rounds to the even
significand), the double addition `+ 1` rounds back down to `2 ^ 53`,
and the result renders as `"9007199254740992.0.0"` — not the incremented
`"9007199254740994.0.0"` the claim promises. -/
theorem bumpVersion_overflow_counterexample :
    bumpVersion (verString 9007199254740993 0 0) VersionBumpType.major
      ≠ verString (9007199254740993 + 1) 0 0 ∧
    bumpVersion (verString 9007199254740993 0 0) VersionBumpType.major
      = verString 9007199254740992 0 0 := by
  constructor
  · decide
  · decide

/-- C3 (amended): for version strings `"X.Y.Z"` whose components do not
exceed `Number.MAX_SAFE_INTEGER = 2 ^ 53 - 1` — where parsing, the
double increment and decimal re-rendering are all exact — `bumpVersion`
increments the major/minor/patch component and zeroes the lower ones
(also shown on `"1.2.3"`), and `bumpVersion v none = v` for every string
`v`.  Above that bound the program's IEEE-754 arithmetic loses
precision, as the counterexample shows. -/
theorem bumpVersion_spec_safe :
    (∀ x y z : Nat,
      x ≤ maxSafeInteger → y ≤ maxSafeInteger → z ≤ maxSafeInteger →
      bumpVersion (verString x y z) VersionBumpType.major = verString (x + 1) 0 0 ∧
      bumpVersion (verString x y z) VersionBumpType.minor = verString x (y + 1) 0 ∧
      bumpVersion (verString x y z) VersionBumpType.patch = verString x y (z + 1)) ∧
    bumpVersion "1.2.3" VersionBumpType.major = "2.0.0" ∧
    bumpVersion "1.2.3" VersionBumpType.minor = "1.3.0" ∧
    bumpVersion "1.2.3" VersionBumpType.patch = "1.2.4" ∧
    (∀ v : String, bumpVersion v VersionBumpType.none = v) := by
  refine ⟨fun x y z hx hy hz => bumpVersion_verString x y z hx hy hz,
    by decide, by decide, by decide, ?_⟩
  intro v
  simp [bumpVersion]

/-- C3 witness for the amended claim: at the very edge of the safe
range, `MAX_SAFE_INTEGER.2.3` major-bumps to `9007199254740992.0.0`. -/
theorem bumpVersion_spec_safe_witness :
    9007199254740991 ≤ maxSafeInteger ∧
    bumpVersion (verString 9007199254740991 2 3) VersionBumpType.major
      = verString 9007199254740992 0 0 := by
  refine ⟨by decide, ?_⟩
  have h := (bumpVersion_spec_safe.1 9007199254740991 2 3
    (by decide) (by decide) (by decide)).1
  exact h

/-- C4: for every package of the set (distinct manifest files) and every
entry of its three dependency maps whose key names another package of the
set, the rewritten manifest holds the new version with the original
prefix style (`^`/`~` kept, otherwise bare), entries naming outside
packages are untouched, and the manifest file is written only when some
computed specifier differs from the stored one. -/
theorem updateLocalDependencyVersions_spec
    (packages : List DiscoveredPackage) (newVersion : String) (w : World)
    (hpaths : (packages.map DiscoveredPackage.packageJsonPath).Nodup) :
    ∀ pkg ∈ packages,
      RewrittenMap (packages.map DiscoveredPackage.name) newVersion
        (w.fs pkg.packageJsonPath).dependencies
        ((updateLocalDependencyVersions packages newVersion false w).fs
          pkg.packageJsonPath).dependencies ∧
      RewrittenMap (packages.map DiscoveredPackage.name) newVersion
        (w.fs pkg.packageJsonPath).devDependencies
        ((updateLocalDependencyVersions packages newVersion false w).fs
          pkg.packageJsonPath).devDependencies ∧
      RewrittenMap (packages.map DiscoveredPackage.name) newVersion
        (w.fs pkg.packageJsonPath).peerDependencies
        ((updateLocalDependencyVersions packages newVersion false w).fs
          pkg.packageJsonPath).peerDependencies ∧
      (pkg.packageJsonPath ∈ (updateLocalDependencyVersions packages newVersion false w).writes
        ↔ pkg.packageJsonPath ∈ w.writes ∨
          ∃ kv ∈ ((w.fs pkg.packageJsonPath).dependencies.getD []
                  ++ (w.fs pkg.packageJsonPath).devDependencies.getD []
                  ++ (w.fs pkg.packageJsonPath).peerDependencies.getD []),
            kv.1 ∈ packages.map DiscoveredPackage.name ∧
            newSpec kv.2 newVersion ≠ kv.2) := by
  intro pkg hpkg
  rw [updateLocalDependencyVersions_eq]
  obtain ⟨-, hmem, -⟩ :=
    updateLD_fold (packages.map DiscoveredPackage.name) newVersion packages w hpaths
  obtain ⟨hfs, hwr⟩ := hmem pkg hpkg
  cases hmod : manifestModified (packages.map DiscoveredPackage.name) newVersion
      (w.fs pkg.packageJsonPath) with
  | true =>
    rw [hmod, if_pos rfl] at hfs
    rw [hfs]
    refine ⟨rewrittenMap_rewrite _ _ _, rewrittenMap_rewrite _ _ _,
      rewrittenMap_rewrite _ _ _, ?_⟩
    rw [hwr]
    have hex := (manifestModified_iff _ _ _).mp hmod
    constructor
    · rintro (h | h)
      · exact Or.inl h
      · exact Or.inr hex
    · rintro (h | -)
      · exact Or.inl h
      · exact Or.inr hmod
  | false =>
    rw [hmod, if_neg (by simp)] at hfs
    rw [hfs]
    obtain ⟨m1, m2, m3⟩ :=
      manifestModified_false _ _ _ hmod
    refine ⟨rewrittenMap_id _ _ _ m1, rewrittenMap_id _ _ _ m2,
      rewrittenMap_id _ _ _ m3, ?_⟩
    have hno : ¬ ∃ kv ∈ ((w.fs pkg.packageJsonPath).dependencies.getD []
        ++ (w.fs pkg.packageJsonPath).devDependencies.getD []
        ++ (w.fs pkg.packageJsonPath).peerDependencies.getD []),
        kv.1 ∈ packages.map DiscoveredPackage.name ∧
        newSpec kv.2 newVersion ≠ kv.2 := by
      intro hc
      rw [← manifestModified_iff] at hc
      rw [hmod] at hc
      cases hc
    rw [hwr, hmod]
    constructor
    · rintro (h | h)
      · exact Or.inl h
      · exact Bool.noConfusion h
    · rintro (h | h)
      · exact Or.inl h
      · exact absurd h hno

/-- Inputs for the mutation witnesses: two packages, `b` depending on the
workspace sibling `a` and on the external `x`. -/
def wjA : PackageJson := { name := "a", version := "1.0.0" }

def wjB : PackageJson :=
  { name := "b"
    version := "1.0.0"
    dependencies := Option.some [("a", "^1.0.0"), ("x", "2.0.0")] }

def w0 : World := { fs := fun p => if p = "/w/b/package.json" then wjB else wjA }

def wpA : DiscoveredPackage := ⟨"a", "1.0.0", "/w/a", "/w/a/package.json", false, []⟩

def wpB : DiscoveredPackage := ⟨"b", "1.0.0", "/w/b", "/w/b/package.json", false, ["a"]⟩

/-- C4 witness: in `b`'s manifest, `a: ^1.0.0` becomes `a: ^2.0.0`
(prefix kept), the external `x` entry is untouched, and the file is
written. -/
theorem updateLocalDependencyVersions_spec_witness :
    ([wpA, wpB].map DiscoveredPackage.packageJsonPath).Nodup ∧
    wpB ∈ [wpA, wpB] ∧
    ("a", "^2.0.0") ∈ ((updateLocalDependencyVersions [wpA, wpB] "2.0.0" false w0).fs
        "/w/b/package.json").dependencies.getD [] ∧
    ("x", "2.0.0") ∈ ((updateLocalDependencyVersions [wpA, wpB] "2.0.0" false w0).fs
        "/w/b/package.json").dependencies.getD [] ∧
    "/w/b/package.json" ∈ (updateLocalDependencyVersions [wpA, wpB] "2.0.0" false w0).writes := by
  have h := updateLocalDependencyVersions_spec [wpA, wpB] "2.0.0" w0 (by decide) wpB (by decide)
  have h1 := ((h.1 "a" "^1.0.0" (by decide)).1 (by decide)).1 (by decide)
  have h2 := (h.1 "x" "2.0.0" (by decide)).2 (by decide)
  have h3 := h.2.2.2.mpr (Or.inr ⟨("a", "^1.0.0"), by decide, by decide, by decide⟩)
  refine ⟨by decide, by decide, ?_, h2, h3⟩
  have : ("^" ++ "2.0.0" : String) = "^2.0.0" := by decide
  rwa [this] at h1

/-- C5: with `dryRun` set, none of the mutating operations touches the
manifest state, the write trace, or the external-command trace:
`updatePackageVersion` and `updateLocalDependencyVersions` return the
world unchanged, and `publishPackage`, `createGitTag` and `pushGitTag`
return it unchanged (no command spawned) with a success result. -/
theorem dryRun_no_mutation :
    (∀ (pkg : DiscoveredPackage) (v : String) (w : World),
      updatePackageVersion pkg v true w = w) ∧
    (∀ (packages : List DiscoveredPackage) (v : String) (w : World),
      updateLocalDependencyVersions packages v true w = w) ∧
    (∀ (exec : Cmd → Nat × String) (pkg : DiscoveredPackage) (registry otp : String)
      (w : World),
      publishPackage exec pkg registry otp true w = (w, { success := true })) ∧
    (∀ (exec : Cmd → Nat × String) (version cwd : String) (w : World),
      createGitTag exec version cwd true w = (w, { success := true })) ∧
    (∀ (exec : Cmd → Nat × String) (version cwd : String) (w : World),
      pushGitTag exec version cwd true w = (w, { success := true })) := by
  refine ⟨fun pkg v w => rfl, ?_, fun e p r o w => rfl, fun e v c w => rfl,
    fun e v c w => rfl⟩
  intro packages v w
  rw [updateLocalDependencyVersions_eq]
  generalize packages.map DiscoveredPackage.name = ns
  induction packages generalizing w with
  | nil => rfl
  | cons pkg l ih =>
    rw [List.foldl_cons]
    rw [show updateLDStep ns v true w pkg = w from rfl]
    exact ih w

/-- C6: every `localDependencies` entry of a discovered package names a
package loaded in the same run, and the list is the (first-occurrence)
union of the keys of `dependencies`, `devDependencies` and
`peerDependencies` intersected with the loaded-name set — a name in
several maps contributes one entry. -/
theorem discoverPackages_localDeps (cs : List (String × Option PackageJson)) :
    ∀ P ∈ discoverPackagesFrom cs,
      (∀ d ∈ P.localDependencies, d ∈ pkgNames (discoverPackagesFrom cs)) ∧
      P.localDependencies.Nodup ∧
      ∃ dir j, (dir, Option.some j) ∈ cs ∧
        P = mkDiscovered dir j (loadedNames cs) ∧
        (∀ d, d ∈ P.localDependencies ↔
          (d ∈ depNamesUnion j ∧ d ∈ pkgNames (discoverPackagesFrom cs))) := by
  intro P hP
  obtain ⟨dir, j, hc, rfl⟩ := mem_discoverPackagesFrom.mp hP
  rw [pkgNames_discoverPackagesFrom]
  have hld : (mkDiscovered dir j (loadedNames cs)).localDependencies
      = findLocalDependencies j (loadedNames cs) := rfl
  refine ⟨?_, ?_, dir, j, hc, rfl, ?_⟩
  · intro d hd
    rw [hld, findLocalDependencies_mem] at hd
    exact hd.2
  · rw [hld]
    exact findLocalDependencies_nodup j (loadedNames cs)
  · intro d
    rw [hld]
    exact findLocalDependencies_mem j (loadedNames cs) d

/-- Discovery inputs for the C6 witness: `b` names the sibling `a` in
both `dependencies` and `devDependencies` and the external `lodash`; one
candidate directory has no readable manifest. -/
def candA : PackageJson := { name := "a", version := "1.0.0" }

def candB : PackageJson :=
  { name := "b"
    version := "1.0.0"
    dependencies := Option.some [("a", "^1.0.0"), ("lodash", "4.0.0")]
    devDependencies := Option.some [("a", "1.0.0")] }

def cands : List (String × Option PackageJson) :=
  [("/w/a", Option.some candA), ("/w/skip", Option.none), ("/w/b", Option.some candB)]

/-- C6 witness: `b`'s local dependencies are exactly `["a"]` — the
duplicated `a` counted once, the external `lodash` excluded. -/
theorem discoverPackages_localDeps_witness :
    mkDiscovered "/w/b" candB (loadedNames cands) ∈ discoverPackagesFrom cands ∧
    (∀ d ∈ (mkDiscovered "/w/b" candB (loadedNames cands)).localDependencies,
      d ∈ pkgNames (discoverPackagesFrom cands)) ∧
    (mkDiscovered "/w/b" candB (loadedNames cands)).localDependencies = ["a"] := by
  have h := discoverPackages_localDeps cands
    (mkDiscovered "/w/b" candB (loadedNames cands)) (by decide)
  exact ⟨by decide, h.1, by decide⟩

/-- C7: a package discovered with `private: true` is excluded from the
publishable set, yet its name is in the discovery-run name set and a
sibling that names it among its dependency keys records it in
`localDependencies`; and `sortByDependencyOrder` is oblivious to the
`isPrivate` flag, so such a package is ordered like any other. -/
theorem private_package_participation :
    (∀ (cs : List (String × Option PackageJson)) (P : DiscoveredPackage),
      P ∈ discoverPackagesFrom cs → P.isPrivate = true →
        P ∉ publishableOf (discoverPackagesFrom cs) ∧
        P.name ∈ loadedNames cs ∧
        (∀ dir j, (dir, Option.some j) ∈ cs → P.name ∈ depNamesUnion j →
          P.name ∈ (mkDiscovered dir j (loadedNames cs)).localDependencies ∧
          mkDiscovered dir j (loadedNames cs) ∈ discoverPackagesFrom cs)) ∧
    (∀ (b : Bool) (packages : List DiscoveredPackage),
      sortByDependencyOrder (packages.map (setPrivate b))
        = (sortByDependencyOrder packages).map (setPrivate b)) := by
  constructor
  · intro cs P hP hpriv
    have hname : P.name ∈ loadedNames cs := by
      rw [← pkgNames_discoverPackagesFrom]
      exact List.mem_map_of_mem DiscoveredPackage.name hP
    refine ⟨?_, hname, ?_⟩
    · intro hc
      rw [publishableOf, List.mem_filter, hpriv] at hc
      simp at hc
    · intro dir j hcj hdep
      refine ⟨?_, mem_discoverPackagesFrom.mpr ⟨dir, j, hcj, rfl⟩⟩
      show P.name ∈ findLocalDependencies j (loadedNames cs)
      rw [findLocalDependencies_mem]
      exact ⟨hdep, hname⟩
  · intro b packages
    exact sortByDependencyOrder_setPrivate b packages

/-- Discovery inputs for the C7 witness: `p` is private and the public
`s` depends on it. -/
def privJ : PackageJson :=
  { name := "p"
    version := "1.0.0"
    privateFlag := Option.some true }

def sibJ : PackageJson :=
  { name := "s"
    version := "1.0.0"
    dependencies := Option.some [("p", "^1.0.0")] }

def privCands : List (String × Option PackageJson) :=
  [("/w/p", Option.some privJ), ("/w/s", Option.some sibJ)]

/-- C7 witness: the private `p` is not publishable, the sibling `s`
records it locally, and the sort commutes with flipping the flag. -/
theorem private_package_participation_witness :
    mkDiscovered "/w/p" privJ (loadedNames privCands) ∈ discoverPackagesFrom privCands ∧
    (mkDiscovered "/w/p" privJ (loadedNames privCands)).isPrivate = true ∧
    mkDiscovered "/w/p" privJ (loadedNames privCands)
      ∉ publishableOf (discoverPackagesFrom privCands) ∧
    "p" ∈ (mkDiscovered "/w/s" sibJ (loadedNames privCands)).localDependencies ∧
    sortByDependencyOrder (diamond.map (setPrivate true))
      = (sortByDependencyOrder diamond).map (setPrivate true) := by
  have h := private_package_participation
  have h1 := h.1 privCands (mkDiscovered "/w/p" privJ (loadedNames privCands))
    (by decide) (by decide)
  refine ⟨by decide, by decide, h1.1, ?_, h.2 true diamond⟩
  exact (h1.2.2 "/w/s" sibJ (by decide) (by decide)).1

/-- A package with no local dependencies transitively depends on
nothing. -/
theorem no_transGen_from (pm : List DiscoveredPackage) (p : DiscoveredPackage)
    (h : p.localDependencies = []) :
    ∀ y, ¬ Relation.TransGen (DependsOn pm) p y := by
  intro y htg
  induction htg with
  | single e =>
    have h2 := e.2.2
    rw [h] at h2
    exact List.not_mem_nil _ h2
  | tail _ _ ih => exact ih

/-- C8 counterexample: in `[a (depends on c), b, c]`, the packages `b`
and `c` have no dependency relation in either direction (not even
transitively), `b` precedes `c` in the input, yet the output
`[c, a, b]` places `c` before `b` — the DFS emits `c` while visiting
`a`. -/
theorem stable_order_counterexample :
    pkgStabB.name ∉ pkgStabC.localDependencies ∧
    pkgStabC.name ∉ pkgStabB.localDependencies ∧
    (¬ Relation.TransGen (DependsOn stabList) pkgStabC pkgStabB) ∧
    (¬ Relation.TransGen (DependsOn stabList) pkgStabB pkgStabC) ∧
    stabList.indexOf pkgStabB < stabList.indexOf pkgStabC ∧
    (sortByDependencyOrder stabList).indexOf pkgStabC
      < (sortByDependencyOrder stabList).indexOf pkgStabB := by
  have hB := no_transGen_from stabList pkgStabB (by decide)
  have hC := no_transGen_from stabList pkgStabC (by decide)
  exact ⟨by decide, by decide, hC pkgStabB, hB pkgStabC, by decide, by decide⟩

/-- Nobody's dependency key list names `p`, so no package transitively
depends on `p` (used to discharge the amended C8's hypotheses on
concrete inputs). -/
theorem no_transGen_to (pm : List DiscoveredPackage) (p : DiscoveredPackage)
    (h : ∀ r ∈ pm, p.name ∉ r.localDependencies) :
    ∀ r, ¬ Relation.TransGen (DependsOn pm) r p := by
  intro r htg
  cases htg with
  | single e => exact h _ e.1 e.2.2
  | tail _ e => exact h _ e.1 e.2.2

/-- C8 (amended): for two packages `p` before `q` in the input such that
no package of the input names `q` as a direct or transitive local
dependency (in particular the two have no dependency relation of `p` on
`q`), the relative order of the output equals the relative order of the
input.  The counterexample forces the extra condition: a package that an
earlier package transitively depends on is emitted early by the DFS. -/
theorem sortByDependencyOrder_stable_independent (pm : List DiscoveredPackage)
    (hnd : (pkgNames pm).Nodup) {p q : DiscoveredPackage}
    (hp : p ∈ pm) (hq : q ∈ pm)
    (hnq : ∀ r, ¬ Relation.TransGen (DependsOn pm) r q)
    (hord : pm.indexOf p < pm.indexOf q) :
    (sortByDependencyOrder pm).indexOf p < (sortByDependencyOrder pm).indexOf q := by
  have hel : pm.Nodup := List.Nodup.of_map _ hnd
  obtain ⟨u, v, hsplit⟩ := List.append_of_mem hp
  have hpu : p ∉ u := by
    intro hc
    rw [hsplit, List.nodup_append] at hel
    exact hel.2.2 hc (List.mem_cons_self _ _)
  have hqp : q ≠ p := by
    intro h
    rw [h] at hord
    exact lt_irrefl _ hord
  have hidxp : pm.indexOf p = u.length := by
    rw [hsplit, List.indexOf_append_of_not_mem hpu, List.indexOf_cons_self]
    omega
  have hqv : q ∈ v := by
    have hq' := hq
    rw [hsplit] at hq'
    rcases List.mem_append.mp hq' with hqu | hqc
    · exfalso
      have : pm.indexOf q < u.length := by
        rw [hsplit, List.indexOf_append_of_mem hqu]
        exact List.indexOf_lt_length.mpr hqu
      omega
    · rcases List.mem_cons.mp hqc with h | h
      · exact absurd h hqp
      · exact h
  -- the state after the outer loop has processed `u` and then `p`
  obtain ⟨⟨t0, hd0⟩, -⟩ := sortFold_delta pm u ([], [])
    (fun x hx => by rw [hsplit]; exact List.mem_append_left _ hx)
  obtain ⟨t1, hd1⟩ := visitFuel_delta pm (pm.length + 1) p
    (u.foldl (sortStep pm) ([], [])) hp
  set S0 := u.foldl (sortStep pm) ([], []) with hS0
  set S1 := sortStep pm S0 p with hS1
  have hd1' : Delta pm (Relation.ReflTransGen (edgeOf pm) p) S0 S1 t1 := hd1
  have hS02 : S0.2 = t0 := by
    have := hd0.1
    simpa using this
  have hS12 : S1.2 = t0 ++ t1 := by
    rw [hd1'.1, hS02]
  -- p is in the output block after its own iteration
  have hpS1 : p ∈ S1.2 := by
    have hpn : p.name ∈ S1.1 := visitFuel_visits pm pm.length p S0
    rcases hd1'.2.2.1 p.name hpn with h | h
    · rcases hd0.2.2.1 p.name h with h' | h'
      · cases h'
      · simp only [pkgNames, List.mem_map] at h'
        obtain ⟨x, hx, hxn⟩ := h'
        have : x = p := eq_of_name_eq hnd (hd0.2.2.2.1 x hx) hp hxn
        rw [hS12]
        exact List.mem_append_left _ (this ▸ hx)
    · simp only [pkgNames, List.mem_map] at h
      obtain ⟨x, hx, hxn⟩ := h
      have : x = p := eq_of_name_eq hnd (hd1'.2.2.2.1 x hx) hp hxn
      rw [hS12]
      exact List.mem_append_right _ (this ▸ hx)
  -- q is not yet in the output after p's iteration
  have hqS1 : q ∉ S1.2 := by
    intro hc
    rw [hS12] at hc
    have hdisj : u.Disjoint (p :: v) := by
      rw [hsplit, List.nodup_append] at hel
      exact hel.2.2
    rcases List.mem_append.mp hc with hq0 | hq1
    · obtain ⟨r, hr, hreach⟩ := hd0.2.2.2.2.2.2.2 q hq0
      rcases Relation.reflTransGen_iff_eq_or_transGen.mp hreach with h | h
      · rw [← h] at hr
        exact hdisj hr (List.mem_cons_of_mem _ hqv)
      · have hrpm : r ∈ pm := by
          rw [hsplit]
          exact List.mem_append_left _ hr
        exact hnq r (transGen_dependsOn_of_edge hrpm h).1
    · have hreach := hd1'.2.2.2.2.2.2.2 q hq1
      rcases Relation.reflTransGen_iff_eq_or_transGen.mp hreach with h | h
      · exact hqp h
      · exact hnq p (transGen_dependsOn_of_edge hp h).1
  -- the final output extends the state after p's iteration
  obtain ⟨⟨t2, hd2⟩, -⟩ := sortFold_delta pm v S1
    (fun x hx => by
      rw [hsplit]
      exact List.mem_append_right _ (List.mem_cons_of_mem _ hx))
  have hfold : pm.foldl (sortStep pm) ([], []) = v.foldl (sortStep pm) S1 := by
    have hcongr : pm.foldl (sortStep pm) ([], [])
        = (u ++ p :: v).foldl (sortStep pm) ([], []) :=
      congrArg (fun l => List.foldl (sortStep pm) ([], []) l) hsplit
    rw [hcongr, List.foldl_append, List.foldl_cons]
  have hfinal : sortByDependencyOrder pm = S1.2 ++ t2 := by
    rw [sortByDependencyOrder_eq_foldl, hfold]
    exact hd2.1
  have hqfin : q ∈ sortByDependencyOrder pm := sortByDependencyOrder_mem pm hnd hq
  rw [hfinal]
  rw [hfinal] at hqfin
  have hqt2 : q ∉ S1.2 := hqS1
  have h1 : List.indexOf p (S1.2 ++ t2) = List.indexOf p S1.2 :=
    List.indexOf_append_of_mem hpS1
  have h2 : List.indexOf p S1.2 < S1.2.length := List.indexOf_lt_length.mpr hpS1
  have h3 : List.indexOf q (S1.2 ++ t2) = S1.2.length + List.indexOf q t2 :=
    List.indexOf_append_of_not_mem hqt2
  omega

/-- C8 witness for the amended claim: in the counterexample input, the
pair `(a, b)` — of which no package is a dependent — keeps its input
order in the output `[c, a, b]`. -/
theorem sortByDependencyOrder_stable_independent_witness :
    (pkgNames stabList).Nodup ∧
    stabList.indexOf pkgStabA < stabList.indexOf pkgStabB ∧
    (sortByDependencyOrder stabList).indexOf pkgStabA
      < (sortByDependencyOrder stabList).indexOf pkgStabB := by
  refine ⟨by decide, by decide, ?_⟩
  exact sortByDependencyOrder_stable_independent stabList (by decide)
    (by decide) (by decide)
    (no_transGen_to stabList pkgStabB (by decide))
    (by decide)

/-- C9: with `--ci` given and no `--version` value (and `--help` not
requested, which exits 0 first), `main` reports the configuration error
and exits with code 1 before any pipeline stage runs. -/
theorem ci_requires_version (args : List String)
    (hh : (parseArgs args).help = false)
    (hc : (parseArgs args).ci = true)
    (hv : (parseArgs args).version = "") :
    mainDispatch (parseArgs args) = CliAction.ciConfigErrorExit1 ∧
    cliExitCode (mainDispatch (parseArgs args)) = Option.some 1 := by
  have h : mainDispatch (parseArgs args) = CliAction.ciConfigErrorExit1 := by
    rw [mainDispatch, if_neg (by simp [hh]), if_pos ⟨hc, hv⟩]
  exact ⟨h, by rw [h]; rfl⟩

/-- C9 witness: `pubz --ci`. -/
theorem ci_requires_version_witness :
    (parseArgs ["--ci"]).help = false ∧
    (parseArgs ["--ci"]).ci = true ∧
    (parseArgs ["--ci"]).version = "" ∧
    mainDispatch (parseArgs ["--ci"]) = CliAction.ciConfigErrorExit1 := by
  refine ⟨by decide, by decide, by decide, ?_⟩
  exact (ci_requires_version ["--ci"] (by decide) (by decide) (by decide)).1

/-- C10: a non-dry-run `updatePackageVersion` sets exactly the manifest's
`version` field: every other parsed field is unchanged, every other path
is unchanged, no external command is spawned, and the one write is
recorded. -/
theorem updatePackageVersion_frame (pkg : DiscoveredPackage) (newVersion : String)
    (w : World) :
    ((updatePackageVersion pkg newVersion false w).fs pkg.packageJsonPath).version
      = newVersion ∧
    ((updatePackageVersion pkg newVersion false w).fs pkg.packageJsonPath).name
      = (w.fs pkg.packageJsonPath).name ∧
    ((updatePackageVersion pkg newVersion false w).fs pkg.packageJsonPath).privateFlag
      = (w.fs pkg.packageJsonPath).privateFlag ∧
    ((updatePackageVersion pkg newVersion false w).fs pkg.packageJsonPath).workspaces
      = (w.fs pkg.packageJsonPath).workspaces ∧
    ((updatePackageVersion pkg newVersion false w).fs pkg.packageJsonPath).dependencies
      = (w.fs pkg.packageJsonPath).dependencies ∧
    ((updatePackageVersion pkg newVersion false w).fs pkg.packageJsonPath).devDependencies
      = (w.fs pkg.packageJsonPath).devDependencies ∧
    ((updatePackageVersion pkg newVersion false w).fs pkg.packageJsonPath).peerDependencies
      = (w.fs pkg.packageJsonPath).peerDependencies ∧
    ((updatePackageVersion pkg newVersion false w).fs pkg.packageJsonPath).scripts
      = (w.fs pkg.packageJsonPath).scripts ∧
    (∀ p, p ≠ pkg.packageJsonPath →
      (updatePackageVersion pkg newVersion false w).fs p = w.fs p) ∧
    (updatePackageVersion pkg newVersion false w).commands = w.commands ∧
    (updatePackageVersion pkg newVersion false w).writes
      = w.writes ++ [pkg.packageJsonPath] := by
  refine ⟨by simp [updatePackageVersion], by simp [updatePackageVersion],
    by simp [updatePackageVersion], by simp [updatePackageVersion],
    by simp [updatePackageVersion], by simp [updatePackageVersion],
    by simp [updatePackageVersion], by simp [updatePackageVersion],
    ?_, by simp [updatePackageVersion], by simp [updatePackageVersion]⟩
  intro p hne
  simp [updatePackageVersion, hne]

/-- C10 witness: the concrete two-manifest world. -/
theorem updatePackageVersion_frame_witness :
    ((updatePackageVersion wpB "2.0.0" false w0).fs "/w/b/package.json").version
      = "2.0.0" ∧
    ((updatePackageVersion wpB "2.0.0" false w0).fs "/w/b/package.json").dependencies
      = wjB.dependencies ∧
    (updatePackageVersion wpB "2.0.0" false w0).fs "/w/a/package.json"
      = w0.fs "/w/a/package.json" := by
  have h := updatePackageVersion_frame wpB "2.0.0" w0
  refine ⟨h.1, ?_, ?_⟩
  · have h5 := h.2.2.2.2.1
    have hw : w0.fs wpB.packageJsonPath = wjB := by decide
    rw [hw] at h5
    exact h5
  · exact h.2.2.2.2.2.2.2.2.1 "/w/a/package.json" (by decide)
